import Mathlib

/-!
# Grouping engine of `rbac` (grouping.go)

A shallow embedding of `simpleGrouping` and `fatGrouping` from `grouping.go`.

* Go's `map[K]V` is an association list (`GoMap`); a key that is absent reads as
  `none`, which is how the source sees a nil inner map (`e.parents[sub] == nil`).
* Go's `map[K]struct{}` is the list of its keys; `range` walks the list in order,
  which is one of the iteration orders Go allows.
* A mutator returns the state it leaves behind together with its `error` result
  (`none` is Go's `nil`).
-/

namespace Rbac

/-- `type User string`. -/
structure User where
  name : String
deriving DecidableEq, Repr

/-- `type Role string`. -/
structure Role where
  name : String
deriving DecidableEq, Repr

/-- The interface `Subject`: its two implementations are `User` and `Role`. -/
inductive Subject where
  | user (u : User)
  | role (r : Role)
deriving DecidableEq, Repr

/-- The sentinel errors the grouping code wraps with `fmt.Errorf("%w: ...")`; the
message text is dropped, the sentinel kept. -/
inductive Error where
  | ErrNotFound
  | ErrInvlaidSubject
deriving DecidableEq, Repr

/-- Go's `map[K]V` as an association list; the first entry of a key is the live one. -/
abbrev GoMap (κ ν : Type) := List (κ × ν)

namespace GoMap

variable {κ ν : Type} [DecidableEq κ]

/-- The read `m[k]`: `none` stands for the zero value of a missing key (a nil inner map). -/
def get : GoMap κ ν → κ → Option ν
  | [], _ => none
  | (k', v) :: m, k => if k' = k then some v else get m k

/-- The write `m[k] = v`: replaces the entry of `k`, or adds one. -/
def set : GoMap κ ν → κ → ν → GoMap κ ν
  | [], k, v => [(k, v)]
  | (k', v') :: m, k, v => if k' = k then (k, v) :: m else (k', v') :: set m k v

/-- The builtin `delete(m, k)`. -/
def del (m : GoMap κ ν) (k : κ) : GoMap κ ν :=
  m.filter (fun p => decide (p.1 ≠ k))

/-- The keys a `range m` visits. -/
def keys (m : GoMap κ ν) : List κ :=
  m.map Prod.fst

end GoMap

/-- The keys of the inner map `m[k]`, empty when `m[k]` is nil: what `range m[k]` visits. -/
def rangeOf {κ α : Type} [DecidableEq κ] (m : GoMap κ (List α)) (k : κ) : List α :=
  (m.get k).getD []

/-- The statement `m[k][x] = struct{}{}` on an inner map that has been made. -/
def putKey {κ α : Type} [DecidableEq κ] [DecidableEq α]
    (m : GoMap κ (List α)) (k : κ) (x : α) : GoMap κ (List α) :=
  m.set k ((rangeOf m k).insert x)

/-- The guard `if m[k] == nil { m[k] = make(...) }`. -/
def makeIfNil {κ α : Type} [DecidableEq κ]
    (m : GoMap κ (List α)) (k : κ) : GoMap κ (List α) :=
  match m.get k with
  | none => m.set k []
  | some _ => m

/-- The statement `delete(m[k], x)`; deleting from a nil inner map does nothing. -/
def dropKey {κ α : Type} [DecidableEq κ] [DecidableEq α]
    (m : GoMap κ (List α)) (k : κ) (x : α) : GoMap κ (List α) :=
  match m.get k with
  | none => m
  | some s => m.set k (s.filter (fun y => decide (y ≠ x)))

/-- The struct `simpleGrouping`. `maxDepth` is a Go `int`; the only constructor sets it
to 10 and nothing writes it, so it is kept as a natural number. -/
structure simpleGrouping where
  parents : GoMap Subject (List Role)
  children : GoMap Role (List Subject)
  maxDepth : Nat
deriving DecidableEq, Repr

/-- `newSimpleGrouping()`. -/
def newSimpleGrouping : simpleGrouping :=
  { parents := [], children := [], maxDepth := 10 }

namespace simpleGrouping

/-- `simpleGrouping.Join`. -/
def Join (e : simpleGrouping) (sub : Subject) (role : Role) : simpleGrouping × Option Error :=
  let parents := putKey (makeIfNil e.parents sub) sub role
  let children := putKey (makeIfNil e.children role) role sub
  ({ e with parents := parents, children := children }, none)

/-- `simpleGrouping.Leave`. The second `return` comes after `delete(e.parents[sub], role)`,
so the state it leaves carries that deletion. -/
def Leave (e : simpleGrouping) (sub : Subject) (role : Role) : simpleGrouping × Option Error :=
  match e.parents.get sub with
  | none => (e, some Error.ErrNotFound)
  | some _ =>
    let e1 := { e with parents := dropKey e.parents sub role }
    match e1.children.get role with
    | none => (e1, some Error.ErrNotFound)
    | some _ => ({ e1 with children := dropKey e1.children role sub }, none)

/-- The closure `query` of `RolesOf`, with `k = maxDepth + 1 - depth` levels left: the guard
`depth > e.maxDepth` is `k = 0`, and the call `query(r, depth+1)` has one level less. The
accumulator is the map `ancients`. -/
def rolesQuery (e : simpleGrouping) : Nat → Subject → List Role → List Role
  | 0, _, ancients => ancients
  | k + 1, sub, ancients =>
    (rangeOf e.parents sub).foldl
      (fun acc r => rolesQuery e k (Subject.role r) (acc.insert r)) ancients

/-- `simpleGrouping.RolesOf`: `query(user, 0)` on an empty `ancients`; the error is always nil. -/
def RolesOf (e : simpleGrouping) (user : User) : List Role :=
  rolesQuery e (e.maxDepth + 1) (Subject.user user) []

/-- `simpleGrouping.HasRole`: scans `RolesOf(user)` for `role`; the error is always nil. -/
def HasRole (e : simpleGrouping) (user : User) (role : Role) : Bool :=
  (e.RolesOf user).any (fun r => decide (r = role))

/-- The closure `query` of `UsersOf`, with `k = maxDepth + 1 - depth` levels left. The
accumulator is the map `children` of the source. -/
def usersQuery (e : simpleGrouping) : Nat → Role → List User → List User
  | 0, _, found => found
  | k + 1, role, found =>
    (rangeOf e.children role).foldl
      (fun acc ch =>
        match ch with
        | Subject.user u => acc.insert u
        | Subject.role r => usersQuery e k r acc) found

/-- `simpleGrouping.UsersOf`; the error is always nil. -/
def UsersOf (e : simpleGrouping) (role : Role) : List User :=
  usersQuery e (e.maxDepth + 1) role []

/-- `simpleGrouping.AllRoles`: the keys of `children`. -/
def AllRoles (e : simpleGrouping) : List Role :=
  e.children.keys.foldl (fun roles role => roles.insert role) []

/-- `simpleGrouping.AllUsers`: the keys of `parents` that are users. -/
def AllUsers (e : simpleGrouping) : List User :=
  e.parents.keys.foldl
    (fun users sub =>
      match sub with
      | Subject.user u => users.insert u
      | Subject.role _ => users) []

/-- `simpleGrouping.DirectRolesOf`: the inner map itself, `none` when it is nil. -/
def DirectRolesOf (e : simpleGrouping) (sub : Subject) : Option (List Role) :=
  e.parents.get sub

/-- `simpleGrouping.DirectSubjectsOf`: the inner map itself, `none` when it is nil. -/
def DirectSubjectsOf (e : simpleGrouping) (role : Role) : Option (List Subject) :=
  e.children.get role

/-- `simpleGrouping.RemoveRole`. -/
def RemoveRole (e : simpleGrouping) (role : Role) : simpleGrouping × Option Error :=
  let children := rangeOf e.children role
  let e1 := { e with children := e.children.del role }
  ({ e1 with parents := children.foldl (fun m ch => dropKey m ch role) e1.parents }, none)

/-- `simpleGrouping.RemoveUser`. -/
def RemoveUser (e : simpleGrouping) (user : User) : simpleGrouping × Option Error :=
  let parents := rangeOf e.parents (Subject.user user)
  let e1 := { e with parents := e.parents.del (Subject.user user) }
  ({ e1 with children := parents.foldl (fun m p => dropKey m p (Subject.user user)) e1.children },
    none)

end simpleGrouping

/-- The struct `fatGrouping`; the embedded `Grouping` is a `simpleGrouping`. -/
structure fatGrouping where
  Grouping : simpleGrouping
  roles : GoMap Subject (List Role)
  users : GoMap Role (List User)
deriving DecidableEq, Repr

/-- `newFatGrouping(g)`. -/
def newFatGrouping (g : simpleGrouping) : fatGrouping :=
  { Grouping := g, roles := [], users := [] }

namespace fatGrouping

/-- `fatGrouping.Join`. The loop over `g.roles[role]` only writes keys into `g.roles[sub]`;
when the two are the same map every key written is already there, so the loop walks the
keys the map has when the loop starts. The same holds for `g.users`. -/
def Join (g : fatGrouping) (sub : Subject) (role : Role) : fatGrouping × Option Error :=
  match g.Grouping.Join sub role with
  | (inner, some err) => ({ g with Grouping := inner }, some err)
  | (inner, none) =>
    let roles1 := putKey (makeIfNil g.roles sub) sub role
    let roles2 := (rangeOf roles1 (Subject.role role)).foldl (fun m r => putKey m sub r) roles1
    let users1 := makeIfNil g.users role
    let users2 :=
      match sub with
      | Subject.user su => putKey users1 role su
      | Subject.role sr => (rangeOf users1 sr).foldl (fun m u => putKey m role u) users1
    ({ Grouping := inner, roles := roles2, users := users2 }, none)

/-- `fatGrouping.rebuildRoles`. The recursion of the source has no bound of its own: `n` is
the number of nested calls allowed, and `none` says they were not enough. The inner queries
never return an error, so a finished call returns nil. -/
def rebuildRoles : Nat → fatGrouping → Subject → Option fatGrouping
  | 0, _, _ => none
  | n + 1, g, sub =>
    let roles := (g.Grouping.DirectRolesOf sub).getD []
    let fresh := g.roles.set sub []
    let built := roles.foldl
      (fun m role =>
        let m1 := putKey m sub role
        (rangeOf m1 (Subject.role role)).foldl (fun m2 rr => putKey m2 sub rr) m1) fresh
    let subs := (g.Grouping.DirectRolesOf sub).getD []
    subs.foldlM (fun g1 p => rebuildRoles n g1 (Subject.role p)) { g with roles := built }

/-- `fatGrouping.rebuildUsers`, with the same bound `n` on nested calls. -/
def rebuildUsers : Nat → fatGrouping → Role → Option fatGrouping
  | 0, _, _ => none
  | n + 1, g, role =>
    let subs := (g.Grouping.DirectSubjectsOf role).getD []
    let fresh := g.users.set role []
    let built := subs.foldl
      (fun m sub =>
        match sub with
        | Subject.user user => putKey m role user
        | Subject.role sr => (rangeOf m sr).foldl (fun m2 user => putKey m2 role user) m) fresh
    let roles := (g.Grouping.DirectRolesOf (Subject.role role)).getD []
    roles.foldlM (fun g1 p => rebuildUsers n g1 p) { g with users := built }

/-- `fatGrouping.Leave`; `none` when the rebuilds need more than `n` nested calls. -/
def Leave (n : Nat) (g : fatGrouping) (sub : Subject) (role : Role) :
    Option (fatGrouping × Option Error) :=
  match g.Grouping.Leave sub role with
  | (inner, some err) => some ({ g with Grouping := inner }, some err)
  | (inner, none) =>
    match rebuildRoles n { g with Grouping := inner } sub with
    | none => none
    | some g1 =>
      match rebuildUsers n g1 role with
      | none => none
      | some g2 => some (g2, none)

/-- `fatGrouping.HasRole`: whether `g.users` has the key `role`; `user` is not read. -/
def HasRole (g : fatGrouping) (_user : User) (role : Role) : Bool :=
  (g.users.get role).isSome

/-- `fatGrouping.RolesOf`: the inner map `g.roles[user]`, `none` when it is nil. -/
def RolesOf (g : fatGrouping) (user : User) : Option (List Role) :=
  g.roles.get (Subject.user user)

/-- `fatGrouping.UsersOf`: the inner map `g.users[role]`, `none` when it is nil. -/
def UsersOf (g : fatGrouping) (role : Role) : Option (List User) :=
  g.users.get role

/-- `AllRoles`, promoted from the embedded grouping. -/
def AllRoles (g : fatGrouping) : List Role :=
  g.Grouping.AllRoles

/-- `AllUsers`, promoted from the embedded grouping. -/
def AllUsers (g : fatGrouping) : List User :=
  g.Grouping.AllUsers

/-- `fatGrouping.RemoveRole`. `subs` and `roles` are the inner maps themselves, not copies:
the embedded `RemoveRole` drops the key `role` of `children` and leaves that inner map alone,
so `subs` keeps its keys; it deletes `role` from `parents[ch]` for every child, so when `role`
is its own child `roles` is read after that deletion. -/
def RemoveRole (n : Nat) (g : fatGrouping) (role : Role) : Option (fatGrouping × Option Error) :=
  let subs := (g.Grouping.DirectSubjectsOf role).getD []
  match g.Grouping.RemoveRole role with
  | (inner, some err) => some ({ g with Grouping := inner }, some err)
  | (inner, none) =>
    let roles := (inner.DirectRolesOf (Subject.role role)).getD []
    match subs.foldlM (fun g1 sub => rebuildRoles n g1 sub) { g with Grouping := inner } with
    | none => none
    | some g1 =>
      match roles.foldlM (fun g2 p => rebuildUsers n g2 p) g1 with
      | none => none
      | some g2 => some (g2, none)

/-- `fatGrouping.RemoveUser`. `roles` is the inner map `parents[user]`, which the embedded
`RemoveUser` unlinks from `parents` without changing it. -/
def RemoveUser (n : Nat) (g : fatGrouping) (user : User) : Option (fatGrouping × Option Error) :=
  let roles := (g.Grouping.DirectRolesOf (Subject.user user)).getD []
  match g.Grouping.RemoveUser user with
  | (inner, some err) => some ({ g with Grouping := inner }, some err)
  | (inner, none) =>
    match roles.foldlM (fun g1 p => rebuildUsers n g1 p) { g with Grouping := inner } with
    | none => none
    | some g1 => some (g1, none)

end fatGrouping

/-- A call of one of the four mutators of the interface `Grouping`. -/
inductive Op where
  | join (sub : Subject) (role : Role)
  | leave (sub : Subject) (role : Role)
  | removeRole (role : Role)
  | removeUser (user : User)
deriving DecidableEq, Repr

/-- One mutator call on a `simpleGrouping`. -/
def simpleGrouping.step (e : simpleGrouping) : Op → simpleGrouping × Option Error
  | Op.join sub role => e.Join sub role
  | Op.leave sub role => e.Leave sub role
  | Op.removeRole role => e.RemoveRole role
  | Op.removeUser user => e.RemoveUser user

/-- A sequence of mutator calls on a `simpleGrouping`, errors ignored by the caller. -/
def simpleGrouping.run (e : simpleGrouping) (ops : List Op) : simpleGrouping :=
  ops.foldl (fun s op => (s.step op).1) e

/-- One mutator call on a `fatGrouping`, every rebuild allowed `n` nested calls. -/
def fatGrouping.step (n : Nat) (g : fatGrouping) : Op → Option (fatGrouping × Option Error)
  | Op.join sub role => some (g.Join sub role)
  | Op.leave sub role => g.Leave n sub role
  | Op.removeRole role => g.RemoveRole n role
  | Op.removeUser user => g.RemoveUser n user

/-- A sequence of mutator calls on a `fatGrouping`; `none` when a call does not finish
within `n` nested rebuilds. -/
def fatGrouping.run (n : Nat) (g : fatGrouping) (ops : List Op) : Option fatGrouping :=
  ops.foldlM (fun s op => (s.step n op).map Prod.fst) g

/-- A path of exactly `n` direct edges `sub → … → role`, read off `parents`. -/
inductive Path (e : simpleGrouping) : Subject → Role → Nat → Prop
  | edge {sub : Subject} {role : Role} :
      role ∈ rangeOf e.parents sub → Path e sub role 1
  | step {sub : Subject} {mid role : Role} {n : Nat} :
      mid ∈ rangeOf e.parents sub → Path e (Subject.role mid) role n → Path e sub role (n + 1)

/-- A path of exactly `n` direct edges from `role` down to `s`, read off `children`. -/
inductive Down (e : simpleGrouping) : Role → Subject → Nat → Prop
  | edge {role : Role} {s : Subject} :
      s ∈ rangeOf e.children role → Down e role s 1
  | step {role mid : Role} {s : Subject} {n : Nat} :
      Subject.role mid ∈ rangeOf e.children role → Down e mid s n → Down e role s (n + 1)

/-- The maps `parents` and `children` hold the same direct edges. -/
def Symmetric (e : simpleGrouping) : Prop :=
  ∀ (s : Subject) (r : Role), r ∈ rangeOf e.parents s ↔ s ∈ rangeOf e.children r

/-- The spec's words for a registered user: `u` was the child of some `Join` of the calls
`ops`, and no `RemoveUser(u)` comes after it. -/
def userJoined (ops : List Op) (u : User) : Prop :=
  ∃ pre post r, ops = pre ++ Op.join (Subject.user u) r :: post ∧ Op.removeUser u ∉ post

/-- The spec's words for a registered role: `r` was the parent of some `Join` of the calls
`ops`, and no `RemoveRole(r)` comes after it. -/
def roleJoined (ops : List Op) (r : Role) : Prop :=
  ∃ pre post s, ops = pre ++ Op.join s r :: post ∧ Op.removeRole r ∉ post

/-- A chain of eleven direct edges `User u → Role r1 → … → Role r11`, built by `Join`. -/
def chainOps : List Op :=
  [Op.join (Subject.user ⟨"u"⟩) ⟨"r1"⟩, Op.join (Subject.role ⟨"r1"⟩) ⟨"r2"⟩,
   Op.join (Subject.role ⟨"r2"⟩) ⟨"r3"⟩, Op.join (Subject.role ⟨"r3"⟩) ⟨"r4"⟩,
   Op.join (Subject.role ⟨"r4"⟩) ⟨"r5"⟩, Op.join (Subject.role ⟨"r5"⟩) ⟨"r6"⟩,
   Op.join (Subject.role ⟨"r6"⟩) ⟨"r7"⟩, Op.join (Subject.role ⟨"r7"⟩) ⟨"r8"⟩,
   Op.join (Subject.role ⟨"r8"⟩) ⟨"r9"⟩, Op.join (Subject.role ⟨"r9"⟩) ⟨"r10"⟩,
   Op.join (Subject.role ⟨"r10"⟩) ⟨"r11"⟩]

/-- The joins of user 4 in the grouping test, then the role-to-role joins of `Role 2_0`. -/
def superRoleOps : List Op :=
  [Op.join (Subject.user ⟨"4"⟩) ⟨"2_0"⟩, Op.join (Subject.user ⟨"4"⟩) ⟨"3_1"⟩,
   Op.join (Subject.user ⟨"4"⟩) ⟨"5_4"⟩, Op.join (Subject.role ⟨"2_0"⟩) ⟨"even"⟩,
   Op.join (Subject.role ⟨"2_0"⟩) ⟨"divisible"⟩]

/-- `Role a` joins `Role b`, then `User u` joins `Role a`: `u` is an indirect member of `b`. -/
def nestedOps : List Op :=
  [Op.join (Subject.role ⟨"a"⟩) ⟨"b"⟩, Op.join (Subject.user ⟨"u"⟩) ⟨"a"⟩]

/-! ## Actions (types/action.go) -/

/-- `type Action uint32`: an action is a natural number; the values of the type are those
below `2 ^ 32`, and the one operation that can leave that range (`<<`) is reduced modulo
`2 ^ 32`. -/
abbrev Action := Nat

namespace Action

/-- `Exec Action = 1 << iota`, with `iota = 0`. -/
def Exec : Action := 1 <<< 0

/-- `Write`, the second constant of the `iota` block. -/
def Write : Action := 1 <<< 1

/-- `Read`, the third constant of the `iota` block. -/
def Read : Action := 1 <<< 2

/-- `None Action = 0`. -/
def None : Action := 0

/-- `ReadWrite = Read | Write`. -/
def ReadWrite : Action := Read ||| Write

/-- `ReadExec = Read | Exec`. -/
def ReadExec : Action := Read ||| Exec

/-- `ReadWriteExec = Read | Write | Exec`. -/
def ReadWriteExec : Action := Read ||| Write ||| Exec

/-- `Action.IsIn`: `a|b == b`. -/
def IsIn (a b : Action) : Bool :=
  decide (a ||| b = b)

/-- `Action.Includes`: `b.IsIn(a)`. -/
def Includes (a b : Action) : Bool :=
  IsIn b a

/-- `Action.Difference`: `a &^ b`, the bits of `a` that are not bits of `b`. -/
def Difference (a b : Action) : Action :=
  Nat.bitwise (fun x y => x && !y) a b

/-- The loop of `Action.Split`, from the value `op` and the slice `out`. The loop has no
bound of its own: `n` is the number of times the condition `op <= a` may be tested, and
`none` says that was not enough. `op <<= 1` is taken modulo `2 ^ 32`. -/
def splitLoop (a : Action) : Nat → Action → List Action → Option (List Action)
  | 0, _, _ => none
  | n + 1, op, out =>
    if op ≤ a then
      splitLoop a n ((op <<< 1) % 2 ^ 32) (if op &&& a > 0 then out ++ [op] else out)
    else some out

/-- `Action.Split`, allowed `n` tests of the loop condition. -/
def Split (n : Nat) (a : Action) : Option (List Action) :=
  splitLoop a n 1 []

end Action

/-- The package variables `AllActions` and `actionNames`. -/
structure Registry where
  AllActions : Action
  actionNames : GoMap Action String
deriving DecidableEq, Repr

/-- The initial values of `AllActions` and `actionNames`. -/
def Registry.initial : Registry :=
  { AllActions := Action.ReadWriteExec
    actionNames := [(Action.Read, "read"), (Action.Write, "write"), (Action.Exec, "exec")] }

/-- The loop of `ResetActions` from index `i` on: the state is `actionNames`, the slice
`actions` and `AllActions`. `Action(1 << i)` is a shift of a `uint32`. -/
def resetLoop : Nat → List String → GoMap Action String × List Action × Action →
    GoMap Action String × List Action × Action
  | _, [], st => st
  | i, name :: rest, (names, actions, all) =>
    let a : Action := (1 <<< i) % 2 ^ 32
    resetLoop (i + 1) rest (names.set a name, actions ++ [a], all ||| a)

/-- `ResetActions(names...)`: the registry it leaves and the slice it returns. The old
registry is not read. -/
def ResetActions (_old : Registry) (names : List String) : Registry × List Action :=
  let st := resetLoop 0 names ([], [], 0)
  ({ AllActions := st.2.2, actionNames := st.1 }, st.2.1)

/-- `Action.String`: the names of the actions `Split` returns, `"unknown"` for one that has
none, joined by `"|"`; `none` when `Split` does not finish within `n` tests. -/
def Action.String (reg : Registry) (n : Nat) (a : Action) : Option String :=
  (Action.Split n a).map
    (fun as => "|".intercalate (as.map (fun x => (reg.actionNames.get x).getD "unknown")))

/-! ## Subjects as strings (grouping.go) -/

/-- `strings.HasPrefix(s, prefix)`, on the characters of the strings. -/
def HasPrefix (s pre : String) : Bool :=
  pre.data.isPrefixOf s.data

/-- `strings.TrimPrefix(s, prefix)`: `s` without the leading `prefix`, or `s` itself. -/
def TrimPrefix (s pre : String) : String :=
  if HasPrefix s pre then String.mk (s.data.drop pre.data.length) else s

/-- `User.subject`. -/
def User.subject (u : User) : String :=
  "user:" ++ u.name

/-- `Role.subject`. -/
def Role.subject (r : Role) : String :=
  "role:" ++ r.name

/-- The method `subject()` of the interface `Subject`. -/
def Subject.subject : Subject → String
  | Subject.user u => u.subject
  | Subject.role r => r.subject

/-- `ParseSubject`: the subject returned (`none` is the nil interface) and the error. -/
def ParseSubject (sub : String) : Option Subject × Option Error :=
  if HasPrefix sub "user:" then
    (some (Subject.user ⟨TrimPrefix sub "user:"⟩), none)
  else if HasPrefix sub "role:" then
    (some (Subject.role ⟨TrimPrefix sub "role:"⟩), none)
  else
    (none, some Error.ErrInvlaidSubject)

/-! ## The fake permission persister (internal/persist/fake/permission.go) -/

/-- The entries a `range m` visits, each live key once: an entry whose key was seen earlier
in the list is shadowed and skipped. -/
def GoMap.entriesFrom {κ ν : Type} [DecidableEq κ] : List κ → GoMap κ ν → List (κ × ν)
  | _, [] => []
  | seen, (k, v) :: m =>
    if k ∈ seen then entriesFrom seen m else (k, v) :: entriesFrom (k :: seen) m

/-- The entries a `range m` visits. -/
def GoMap.entries {κ ν : Type} [DecidableEq κ] (m : GoMap κ ν) : List (κ × ν) :=
  GoMap.entriesFrom [] m

/-- `types.PermissionPolicy`. The declarations of `types.Subject` and `types.Object` are
not among the sources: the two key types are the parameters `σ` and `ο`. -/
structure PermissionPolicy (σ ο : Type) where
  Subject : σ
  Object : ο
  Action : Rbac.Action
deriving DecidableEq, Repr

/-- Modelled from the spec: the declaration of the persist methods in package `types` is
missing; a change record has a method among insert, update and delete, and the source
names `types.PersistInsert` and `types.PersistDelete`. -/
inductive PersistMethod where
  | PersistInsert
  | PersistUpdate
  | PersistDelete
deriving DecidableEq, Repr

/-- `types.PermissionPolicyChange`: a policy and the method that changed it. -/
structure PermissionPolicyChange (σ ο : Type) where
  PermissionPolicy : PermissionPolicy σ ο
  Method : PersistMethod
deriving DecidableEq, Repr

/-- The struct `permissionPersister`. The channel `changes` is kept as the list of the
records sent on it so far; a send waits for a receiver and then is the append. -/
structure permissionPersister (σ ο : Type) where
  polices : GoMap σ (GoMap ο Action)
  changes : List (PermissionPolicyChange σ ο)
deriving DecidableEq, Repr

/-- The slice `[]types.PermissionPolicy`. -/
abbrev Policies (σ ο : Type) := List (PermissionPolicy σ ο)

/-- `NewPermissionPersister(ctx, initPolices...)`: every initial policy is OR-ed into its
entry, a missing entry reading as 0. -/
def NewPermissionPersister {σ ο : Type} [DecidableEq σ] [DecidableEq ο]
    (initPolices : Policies σ ο) : permissionPersister σ ο :=
  { polices := initPolices.foldl
      (fun m policy =>
        let m1 := match m.get policy.Subject with
          | none => m.set policy.Subject []
          | some _ => m
        let perm := (m1.get policy.Subject).getD []
        m1.set policy.Subject
          (perm.set policy.Object (((perm.get policy.Object).getD 0) ||| policy.Action))) []
    changes := [] }

/-- The last statements of `Upsert`: the write `p.polices[sub][obj] = act`, the insert
record sent on `changes`, and `return nil`. -/
def permissionPersister.upsertStore {σ ο : Type} [DecidableEq σ] [DecidableEq ο]
    (p : permissionPersister σ ο) (sub : σ) (obj : ο) (act : Action) :
    permissionPersister σ ο × Option Error :=
  ({ polices := p.polices.set sub (((p.polices.get sub).getD []).set obj act)
     changes := p.changes ++ [⟨⟨sub, obj, act⟩, PersistMethod.PersistInsert⟩] }, none)

/-- `permissionPersister.Upsert`. A missing `p.polices[sub][obj]` reads as 0. -/
def permissionPersister.Upsert {σ ο : Type} [DecidableEq σ] [DecidableEq ο]
    (p : permissionPersister σ ο) (sub : σ) (obj : ο) (act : Action) :
    permissionPersister σ ο × Option Error :=
  match p.polices.get sub with
  | some perm =>
    if (perm.get obj).getD 0 = act then (p, none)
    else p.upsertStore sub obj act
  | none =>
    permissionPersister.upsertStore { p with polices := p.polices.set sub [] } sub obj act

/-- `permissionPersister.Remove`. The delete record carries the zero action. -/
def permissionPersister.Remove {σ ο : Type} [DecidableEq σ] [DecidableEq ο]
    (p : permissionPersister σ ο) (sub : σ) (obj : ο) :
    permissionPersister σ ο × Option Error :=
  match p.polices.get sub with
  | none => (p, none)
  | some perm =>
    if (perm.get obj).getD 0 = 0 then (p, none)
    else
      ({ polices := p.polices.set sub (perm.del obj)
         changes := p.changes ++ [⟨⟨sub, obj, 0⟩, PersistMethod.PersistDelete⟩] }, none)

/-- `permissionPersister.List`: one policy for every object of every subject. -/
def permissionPersister.List {σ ο : Type} [DecidableEq σ] [DecidableEq ο]
    (p : permissionPersister σ ο) : Policies σ ο × Option Error :=
  (p.polices.entries.flatMap
    (fun sp => sp.2.entries.map (fun oa => ⟨sp.1, oa.1, oa.2⟩)), none)

/-- A call of one of the two mutators of the fake permission persister. -/
inductive PersisterOp (σ ο : Type) where
  | upsert (sub : σ) (obj : ο) (act : Action)
  | remove (sub : σ) (obj : ο)
deriving DecidableEq, Repr

/-- The slice of calls a caller makes on the fake permission persister. -/
abbrev PersisterOps (σ ο : Type) := List (PersisterOp σ ο)

/-- One mutator call on the fake permission persister. -/
def permissionPersister.step {σ ο : Type} [DecidableEq σ] [DecidableEq ο]
    (p : permissionPersister σ ο) : PersisterOp σ ο → permissionPersister σ ο × Option Error
  | PersisterOp.upsert sub obj act => p.Upsert sub obj act
  | PersisterOp.remove sub obj => p.Remove sub obj

/-- A sequence of mutator calls on the fake permission persister. -/
def permissionPersister.run {σ ο : Type} [DecidableEq σ] [DecidableEq ο]
    (p : permissionPersister σ ο) (ops : PersisterOps σ ο) : permissionPersister σ ο :=
  ops.foldl (fun q op => (q.step op).1) p

/-- No stored mask is zero: every policy `List()` returns has a non-zero action. -/
def MasksNonZero {σ ο : Type} [DecidableEq σ] [DecidableEq ο]
    (p : permissionPersister σ ο) : Prop :=
  ∀ t ∈ p.List.1, t.Action ≠ 0

/-- `Role a` joins itself, then `User u` joins `Role a`: a cycle of one edge above `u`. -/
def selfLoopOps : List Op :=
  [Op.join (Subject.role ⟨"a"⟩) ⟨"a"⟩, Op.join (Subject.user ⟨"u"⟩) ⟨"a"⟩]

/-! ## Lemmas on `GoMap` -/

namespace GoMap

variable {κ ν : Type} [DecidableEq κ]

theorem get_set_self (m : GoMap κ ν) (k : κ) (v : ν) : (m.set k v).get k = some v := by
  induction m with
  | nil => simp [set, get]
  | cons p m ih =>
    obtain ⟨k', v'⟩ := p
    by_cases h : k' = k
    · simp [set, get, h]
    · simp [set, get, h, ih]

theorem get_set_ne (m : GoMap κ ν) {k k' : κ} (h : k ≠ k') (v : ν) :
    (m.set k v).get k' = m.get k' := by
  induction m with
  | nil => simp [set, get, h]
  | cons p m ih =>
    obtain ⟨k1, v1⟩ := p
    by_cases h1 : k1 = k
    · subst h1
      simp [set, get, h]
    · by_cases h2 : k1 = k'
      · subst h2
        simp [set, get, h1]
      · simp [set, get, h1, h2, ih]

theorem set_set (m : GoMap κ ν) (k : κ) (v w : ν) : (m.set k v).set k w = m.set k w := by
  induction m with
  | nil => simp [set]
  | cons p m ih =>
    obtain ⟨k1, v1⟩ := p
    by_cases h1 : k1 = k
    · simp [set, h1]
    · simp [set, h1, ih]

theorem set_of_get (m : GoMap κ ν) (k : κ) (v : ν) (h : m.get k = some v) : m.set k v = m := by
  induction m with
  | nil => simp [get] at h
  | cons p m ih =>
    obtain ⟨k1, v1⟩ := p
    by_cases h1 : k1 = k
    · simp [get, h1] at h
      simp [set, h1, h]
    · simp [get, h1] at h
      simp [set, h1, ih h]

theorem get_del_self (m : GoMap κ ν) (k : κ) : (m.del k).get k = none := by
  induction m with
  | nil => simp [del, get]
  | cons p m ih =>
    obtain ⟨k1, v1⟩ := p
    by_cases h1 : k1 = k
    · simpa [del, h1] using ih
    · simpa [del, h1, get, List.filter_cons] using ih

theorem get_del_ne (m : GoMap κ ν) {k k' : κ} (h : k ≠ k') : (m.del k).get k' = m.get k' := by
  induction m with
  | nil => simp [del, get]
  | cons p m ih =>
    obtain ⟨k1, v1⟩ := p
    by_cases h1 : k1 = k
    · subst h1
      simpa [del, get, h] using ih
    · by_cases h2 : k1 = k'
      · subst h2
        simp [del, get, h1, List.filter_cons]
      · simpa [del, get, h1, h2, List.filter_cons] using ih

theorem mem_keys_iff (m : GoMap κ ν) (k : κ) : k ∈ m.keys ↔ m.get k ≠ none := by
  induction m with
  | nil => simp [keys, get]
  | cons p m ih =>
    obtain ⟨k1, v1⟩ := p
    by_cases h1 : k1 = k
    · simp [keys, get, h1]
    · have h2 : ¬ k = k1 := fun h => h1 h.symm
      simpa [keys, get, h1, h2] using ih

end GoMap

section InnerMaps

variable {κ α : Type} [DecidableEq κ]

theorem get_makeIfNil_self (m : GoMap κ (List α)) (k : κ) :
    (makeIfNil m k).get k = some (rangeOf m k) := by
  unfold makeIfNil rangeOf
  cases h : m.get k with
  | none => simp [GoMap.get_set_self]
  | some s => simp [h]

theorem get_makeIfNil_ne (m : GoMap κ (List α)) {k k' : κ} (h : k ≠ k') :
    (makeIfNil m k).get k' = m.get k' := by
  unfold makeIfNil
  cases hk : m.get k with
  | none => simp [GoMap.get_set_ne _ h]
  | some s => simp

theorem rangeOf_of_get (m : GoMap κ (List α)) (k : κ) (s : List α) (h : m.get k = some s) :
    rangeOf m k = s := by
  simp [rangeOf, h]

theorem makeIfNil_of_get (m : GoMap κ (List α)) (k : κ) (s : List α) (h : m.get k = some s) :
    makeIfNil m k = m := by
  simp [makeIfNil, h]

variable [DecidableEq α]

theorem get_putKey_self (m : GoMap κ (List α)) (k : κ) (x : α) :
    (putKey m k x).get k = some ((rangeOf m k).insert x) := by
  simp [putKey, GoMap.get_set_self]

theorem get_putKey_ne (m : GoMap κ (List α)) {k k' : κ} (h : k ≠ k') (x : α) :
    (putKey m k x).get k' = m.get k' := by
  simp [putKey, GoMap.get_set_ne _ h]

theorem putKey_of_mem (m : GoMap κ (List α)) (k : κ) (x : α) (s : List α)
    (h : m.get k = some s) (hx : x ∈ s) : putKey m k x = m := by
  have hr : rangeOf m k = s := by simp [rangeOf, h]
  unfold putKey
  rw [hr, List.insert_of_mem hx]
  exact GoMap.set_of_get m k s h

theorem foldl_putKey_of_mem (m : GoMap κ (List α)) (k : κ) (s : List α) (l : List α)
    (h : m.get k = some s) (hl : ∀ x ∈ l, x ∈ s) :
    l.foldl (fun m2 x => putKey m2 k x) m = m := by
  induction l with
  | nil => rfl
  | cons a l ih =>
    rw [List.foldl_cons, putKey_of_mem m k a s h (hl a (List.mem_cons_self a l))]
    exact ih (fun x hx => hl x (List.mem_cons_of_mem a hx))

theorem get_foldl_putKey_ne (l : List α) (m : GoMap κ (List α)) {k k' : κ} (h : k ≠ k') :
    (l.foldl (fun m2 x => putKey m2 k x) m).get k' = m.get k' := by
  induction l generalizing m with
  | nil => rfl
  | cons a l ih => rw [List.foldl_cons, ih, get_putKey_ne _ h]

theorem mem_rangeOf_foldl_putKey (l : List α) (m : GoMap κ (List α)) (k : κ) (y : α) :
    y ∈ rangeOf (l.foldl (fun m2 x => putKey m2 k x) m) k ↔ y ∈ rangeOf m k ∨ y ∈ l := by
  induction l generalizing m with
  | nil => simp
  | cons a l ih =>
    rw [List.foldl_cons, ih]
    have : rangeOf (putKey m k a) k = (rangeOf m k).insert a := by
      simp [rangeOf, get_putKey_self]
    rw [this, List.mem_insert_iff, List.mem_cons]
    tauto

theorem get_foldl_putKey_isSome (l : List α) (m : GoMap κ (List α)) (k : κ) (s : List α)
    (h : m.get k = some s) :
    ∃ t, (l.foldl (fun m2 x => putKey m2 k x) m).get k = some t := by
  induction l generalizing m s with
  | nil => exact ⟨s, h⟩
  | cons a l ih =>
    rw [List.foldl_cons]
    exact ih _ _ (get_putKey_self m k a)

theorem putKey_makeIfNil_idem (m : GoMap κ (List α)) (k : κ) (x : α) :
    putKey (makeIfNil (putKey (makeIfNil m k) k x) k) k x = putKey (makeIfNil m k) k x := by
  have hget := get_putKey_self (makeIfNil m k) k x
  rw [makeIfNil_of_get _ k _ hget]
  exact putKey_of_mem _ k x _ hget (List.mem_insert_self x _)

theorem foldl_putKey_idem (m : GoMap κ (List α)) (k j : κ) (s : List α) (h : m.get k = some s) :
    (rangeOf ((rangeOf m j).foldl (fun m2 x => putKey m2 k x) m) j).foldl
        (fun m2 x => putKey m2 k x) ((rangeOf m j).foldl (fun m2 x => putKey m2 k x) m)
      = (rangeOf m j).foldl (fun m2 x => putKey m2 k x) m := by
  obtain ⟨t, ht⟩ := get_foldl_putKey_isSome (rangeOf m j) m k s h
  have hr : rangeOf ((rangeOf m j).foldl (fun m2 x => putKey m2 k x) m) k = t :=
    rangeOf_of_get _ _ _ ht
  apply foldl_putKey_of_mem _ k t _ ht
  intro x hx
  rw [← hr]
  by_cases hkj : k = j
  · subst hkj
    exact hx
  · have : rangeOf ((rangeOf m j).foldl (fun m2 x => putKey m2 k x) m) j = rangeOf m j := by
      unfold rangeOf
      rw [get_foldl_putKey_ne _ _ hkj]
    rw [this] at hx
    exact (mem_rangeOf_foldl_putKey _ m k x).2 (Or.inr hx)

end InnerMaps

/-! ## Membership in the inner maps -/

section InnerMembership

variable {κ α : Type} [DecidableEq κ]

theorem rangeOf_makeIfNil (m : GoMap κ (List α)) (k k' : κ) :
    rangeOf (makeIfNil m k) k' = rangeOf m k' := by
  by_cases h : k = k'
  · subst h
    rw [rangeOf_of_get _ _ _ (get_makeIfNil_self m k)]
  · unfold rangeOf
    rw [get_makeIfNil_ne m h]

theorem rangeOf_del_self (m : GoMap κ (List α)) (k : κ) : rangeOf (m.del k) k = [] := by
  simp [rangeOf, GoMap.get_del_self]

theorem rangeOf_del_ne (m : GoMap κ (List α)) {k k' : κ} (h : k ≠ k') :
    rangeOf (m.del k) k' = rangeOf m k' := by
  simp [rangeOf, GoMap.get_del_ne m h]

variable [DecidableEq α]

theorem mem_rangeOf_putKey (m : GoMap κ (List α)) (k k' : κ) (x y : α) :
    y ∈ rangeOf (putKey m k x) k' ↔ y ∈ rangeOf m k' ∨ (k' = k ∧ y = x) := by
  by_cases h : k = k'
  · subst h
    rw [rangeOf_of_get _ _ _ (get_putKey_self m k x), List.mem_insert_iff]
    tauto
  · have h' : ¬ k' = k := fun hh => h hh.symm
    unfold rangeOf
    rw [get_putKey_ne m h]
    tauto

theorem mem_rangeOf_dropKey (m : GoMap κ (List α)) (k k' : κ) (x y : α) :
    y ∈ rangeOf (dropKey m k x) k' ↔ y ∈ rangeOf m k' ∧ ¬ (k' = k ∧ y = x) := by
  unfold dropKey
  cases hk : m.get k with
  | none =>
    simp only
    constructor
    · intro hy
      refine ⟨hy, ?_⟩
      rintro ⟨rfl, -⟩
      simp [rangeOf, hk] at hy
    · exact fun hy => hy.1
  | some t =>
    simp only
    by_cases h : k = k'
    · subst h
      rw [rangeOf_of_get _ _ _ (GoMap.get_set_self m k _), rangeOf_of_get _ _ _ hk]
      simp [List.mem_filter]
    · have h' : ¬ k' = k := fun hh => h hh.symm
      unfold rangeOf
      rw [GoMap.get_set_ne m h]
      tauto

theorem get_dropKey_eq_none (m : GoMap κ (List α)) (k k' : κ) (x : α) :
    (dropKey m k x).get k' = none ↔ m.get k' = none := by
  unfold dropKey
  cases hk : m.get k with
  | none => simp
  | some t =>
    simp only
    by_cases h : k = k'
    · subst h
      simp [GoMap.get_set_self, hk]
    · rw [GoMap.get_set_ne m h]

theorem mem_rangeOf_foldl_dropKey (l : List κ) (m : GoMap κ (List α)) (k' : κ) (x y : α) :
    y ∈ rangeOf (l.foldl (fun m2 k => dropKey m2 k x) m) k' ↔
      y ∈ rangeOf m k' ∧ ¬ (y = x ∧ k' ∈ l) := by
  induction l generalizing m with
  | nil => simp
  | cons a l ih =>
    rw [List.foldl_cons, ih, mem_rangeOf_dropKey, List.mem_cons]
    tauto

theorem get_foldl_dropKey_eq_none (l : List κ) (m : GoMap κ (List α)) (k' : κ) (x : α) :
    (l.foldl (fun m2 k => dropKey m2 k x) m).get k' = none ↔ m.get k' = none := by
  induction l generalizing m with
  | nil => simp
  | cons a l ih => rw [List.foldl_cons, ih, get_dropKey_eq_none]

end InnerMembership

/-! ## Join -/

theorem simple_join_twice (e : simpleGrouping) (sub : Subject) (r : Role) :
    (e.Join sub r).1.Join sub r = ((e.Join sub r).1, none) := by
  simp only [simpleGrouping.Join, putKey_makeIfNil_idem]

theorem fat_join_returns_nil (g : fatGrouping) (sub : Subject) (r : Role) :
    (g.Join sub r).2 = none := by
  simp only [fatGrouping.Join, simpleGrouping.Join]

theorem fat_join_twice (g : fatGrouping) (sub : Subject) (r : Role) :
    (g.Join sub r).1.Join sub r = ((g.Join sub r).1, none) := by
  have hroles1 : ∀ m : GoMap Subject (List Role),
      putKey (makeIfNil ((rangeOf (putKey (makeIfNil m sub) sub r) (Subject.role r)).foldl
          (fun m2 x => putKey m2 sub x) (putKey (makeIfNil m sub) sub r)) sub) sub r
        = (rangeOf (putKey (makeIfNil m sub) sub r) (Subject.role r)).foldl
          (fun m2 x => putKey m2 sub x) (putKey (makeIfNil m sub) sub r) := by
    intro m
    obtain ⟨t, ht⟩ := get_foldl_putKey_isSome
      (rangeOf (putKey (makeIfNil m sub) sub r) (Subject.role r))
      (putKey (makeIfNil m sub) sub r) sub _ (get_putKey_self (makeIfNil m sub) sub r)
    rw [makeIfNil_of_get _ sub t ht]
    apply putKey_of_mem _ sub r t ht
    have hmem := (mem_rangeOf_foldl_putKey
      (rangeOf (putKey (makeIfNil m sub) sub r) (Subject.role r))
      (putKey (makeIfNil m sub) sub r) sub r).2
      (Or.inl (by rw [rangeOf_of_get _ _ _ (get_putKey_self _ _ _)]
                  exact List.mem_insert_self _ _))
    rwa [rangeOf_of_get _ _ _ ht] at hmem
  have husers : ∀ (m : GoMap Role (List User)) (sr : Role),
      makeIfNil ((rangeOf (makeIfNil m r) sr).foldl (fun m2 x => putKey m2 r x) (makeIfNil m r)) r
        = (rangeOf (makeIfNil m r) sr).foldl (fun m2 x => putKey m2 r x) (makeIfNil m r) := by
    intro m sr
    obtain ⟨t, ht⟩ := get_foldl_putKey_isSome (rangeOf (makeIfNil m r) sr) (makeIfNil m r) r _
      (get_makeIfNil_self m r)
    exact makeIfNil_of_get _ r t ht
  cases sub with
  | user su =>
    simp only [fatGrouping.Join, simpleGrouping.Join, putKey_makeIfNil_idem, hroles1,
      foldl_putKey_idem _ _ _ _ (get_putKey_self _ _ _)]
  | role sr =>
    simp only [fatGrouping.Join, simpleGrouping.Join, putKey_makeIfNil_idem, hroles1, husers,
      foldl_putKey_idem _ _ _ _ (get_putKey_self _ _ _),
      foldl_putKey_idem _ _ _ _ (get_makeIfNil_self _ _)]

/-- C9: `Join` is idempotent on both implementations, for every state, subject and role
(the subject may be the role itself): a second `Join(sub, r)` leaves the state of the first
as it is, and both calls return nil. -/
theorem join_idempotent (e : simpleGrouping) (g : fatGrouping) (sub : Subject) (r : Role) :
    (e.Join sub r).2 = none ∧ (e.Join sub r).1.Join sub r = ((e.Join sub r).1, none) ∧
    (g.Join sub r).2 = none ∧ (g.Join sub r).1.Join sub r = ((g.Join sub r).1, none) :=
  ⟨rfl, simple_join_twice e sub r, fat_join_returns_nil g sub r,
    fat_join_twice g sub r⟩

/-- C10: on every `simpleGrouping` state `Join(sub, r)` returns nil, adds `r` to
`DirectRolesOf(sub)` and `sub` to `DirectSubjectsOf(r)`, and leaves the direct roles of every
other subject and the direct subjects of every other role as they were; a user and a role of
the same name are different subjects. -/
theorem join_direct_edges (e : simpleGrouping) (sub : Subject) (r : Role) :
    (e.Join sub r).2 = none ∧
    (∀ x, x ∈ ((e.Join sub r).1.DirectRolesOf sub).getD [] ↔
      x ∈ (e.DirectRolesOf sub).getD [] ∨ x = r) ∧
    (∀ s, s ∈ ((e.Join sub r).1.DirectSubjectsOf r).getD [] ↔
      s ∈ (e.DirectSubjectsOf r).getD [] ∨ s = sub) ∧
    (∀ s', s' ≠ sub → (e.Join sub r).1.DirectRolesOf s' = e.DirectRolesOf s') ∧
    (∀ r', r' ≠ r → (e.Join sub r).1.DirectSubjectsOf r' = e.DirectSubjectsOf r') ∧
    (∀ x : String, Subject.user ⟨x⟩ ≠ Subject.role ⟨x⟩) := by
  refine ⟨rfl, ?_, ?_, ?_, ?_, ?_⟩
  · intro x
    simp only [simpleGrouping.Join, simpleGrouping.DirectRolesOf, get_putKey_self,
      Option.getD_some, List.mem_insert_iff, rangeOf, get_makeIfNil_self]
    tauto
  · intro s
    simp only [simpleGrouping.Join, simpleGrouping.DirectSubjectsOf, get_putKey_self,
      Option.getD_some, List.mem_insert_iff, rangeOf, get_makeIfNil_self]
    tauto
  · intro s' hs
    simp only [simpleGrouping.Join, simpleGrouping.DirectRolesOf]
    rw [get_putKey_ne _ (Ne.symm hs), get_makeIfNil_ne _ (Ne.symm hs)]
  · intro r' hr
    simp only [simpleGrouping.Join, simpleGrouping.DirectSubjectsOf]
    rw [get_putKey_ne _ (Ne.symm hr), get_makeIfNil_ne _ (Ne.symm hr)]
  · intro x h
    cases h

/-- C10 at `Join(User("x"), Role("x"))` on the empty grouping: the direct roles of the
subject `Role("x")` are untouched. -/
theorem join_direct_edges_witness :
    (newSimpleGrouping.Join (Subject.user ⟨"x"⟩) ⟨"x"⟩).1.DirectRolesOf (Subject.role ⟨"x"⟩)
      = newSimpleGrouping.DirectRolesOf (Subject.role ⟨"x"⟩) :=
  (join_direct_edges newSimpleGrouping (Subject.user ⟨"x"⟩) ⟨"x"⟩).2.2.2.1
    (Subject.role ⟨"x"⟩) (by decide)

/-! ## The bounded traversal of `RolesOf` -/

theorem Path.inv {e : simpleGrouping} {sub : Subject} {x : Role} {m : Nat} (h : Path e sub x m) :
    (m = 1 ∧ x ∈ rangeOf e.parents sub) ∨
      ∃ mid n, m = n + 1 ∧ mid ∈ rangeOf e.parents sub ∧ Path e (Subject.role mid) x n := by
  cases h with
  | edge h => exact Or.inl ⟨rfl, h⟩
  | step hm hp => exact Or.inr ⟨_, _, rfl, hm, hp⟩

theorem Path.pos {e : simpleGrouping} {sub : Subject} {x : Role} {m : Nat} (h : Path e sub x m) :
    1 ≤ m := by
  cases h with
  | edge h => exact le_refl 1
  | step hm hp => exact Nat.le_add_left 1 _

theorem mem_foldl_rolesQuery (e : simpleGrouping) (k : Nat)
    (ih : ∀ sub acc x, x ∈ e.rolesQuery k sub acc ↔
      x ∈ acc ∨ ∃ n, 1 ≤ n ∧ n ≤ k ∧ Path e sub x n)
    (l : List Role) (acc : List Role) (x : Role) :
    x ∈ l.foldl (fun acc r => e.rolesQuery k (Subject.role r) (acc.insert r)) acc ↔
      x ∈ acc ∨ ∃ r ∈ l, x = r ∨ ∃ n, 1 ≤ n ∧ n ≤ k ∧ Path e (Subject.role r) x n := by
  induction l generalizing acc with
  | nil => simp
  | cons a l ihl =>
    rw [List.foldl_cons, ihl, ih, List.mem_insert_iff]
    constructor
    · rintro (((h | h) | h) | ⟨r, hr, h⟩)
      · exact Or.inr ⟨a, List.mem_cons_self a l, Or.inl h⟩
      · exact Or.inl h
      · exact Or.inr ⟨a, List.mem_cons_self a l, Or.inr h⟩
      · exact Or.inr ⟨r, List.mem_cons_of_mem a hr, h⟩
    · rintro (h | ⟨r, hr, h⟩)
      · exact Or.inl (Or.inl (Or.inr h))
      · rcases List.mem_cons.1 hr with rfl | hr
        · rcases h with h | h
          · exact Or.inl (Or.inl (Or.inl h))
          · exact Or.inl (Or.inr h)
        · exact Or.inr ⟨r, hr, h⟩

/-- What the closure `query` of `RolesOf` adds with `k` levels left: the roles at the end of
a path of 1 to `k` direct edges. -/
theorem mem_rolesQuery (e : simpleGrouping) :
    ∀ (k : Nat) (sub : Subject) (acc : List Role) (x : Role),
      x ∈ e.rolesQuery k sub acc ↔ x ∈ acc ∨ ∃ n, 1 ≤ n ∧ n ≤ k ∧ Path e sub x n
  | 0, sub, acc, x => by
    simp only [simpleGrouping.rolesQuery]
    constructor
    · exact Or.inl
    · rintro (h | ⟨n, h1, h2, -⟩)
      · exact h
      · omega
  | k + 1, sub, acc, x => by
    rw [simpleGrouping.rolesQuery, mem_foldl_rolesQuery e k (mem_rolesQuery e k)]
    constructor
    · rintro (h | ⟨r, hr, rfl | ⟨n, h1, h2, hp⟩⟩)
      · exact Or.inl h
      · exact Or.inr ⟨1, le_refl _, by omega, Path.edge hr⟩
      · exact Or.inr ⟨n + 1, by omega, by omega, Path.step hr hp⟩
    · rintro (h | ⟨n, h1, h2, hp⟩)
      · exact Or.inl h
      · rcases hp.inv with ⟨-, hx⟩ | ⟨mid, n', hn, hm, hp'⟩
        · exact Or.inr ⟨x, hx, Or.inl rfl⟩
        · exact Or.inr ⟨mid, hm, Or.inr ⟨n', hp'.pos, by omega, hp'⟩⟩

theorem simpleGrouping.mem_RolesOf (e : simpleGrouping) (u : User) (r : Role) :
    r ∈ e.RolesOf u ↔ ∃ n, 1 ≤ n ∧ n ≤ e.maxDepth + 1 ∧ Path e (Subject.user u) r n := by
  simp [simpleGrouping.RolesOf, mem_rolesQuery]

theorem simpleGrouping.HasRole_iff (e : simpleGrouping) (u : User) (r : Role) :
    e.HasRole u r = true ↔ r ∈ e.RolesOf u := by
  simp [simpleGrouping.HasRole]

theorem simpleGrouping.step_maxDepth (e : simpleGrouping) (op : Op) :
    (e.step op).1.maxDepth = e.maxDepth := by
  cases op with
  | join sub role => rfl
  | leave sub role =>
    simp only [simpleGrouping.step, simpleGrouping.Leave]
    split
    · rfl
    · split <;> rfl
  | removeRole role => rfl
  | removeUser user => rfl

theorem simpleGrouping.run_maxDepth (ops : List Op) (e : simpleGrouping) :
    (e.run ops).maxDepth = e.maxDepth := by
  induction ops generalizing e with
  | nil => rfl
  | cons op ops ih =>
    simp only [simpleGrouping.run, List.foldl_cons] at ih ⊢
    rw [ih, simpleGrouping.step_maxDepth]

/-- C1, with the bound the traversal has: in every `simpleGrouping` state reached from the
empty grouping, `HasRole(u, r)` is true exactly when `r` is in `RolesOf(u)`, and exactly
when the direct edges hold a path `u → … → r` of at least 1 and at most `maxDepth + 1 = 11`
edges. -/
theorem hasRole_iff_path (ops : List Op) (u : User) (r : Role) :
    ((newSimpleGrouping.run ops).HasRole u r = true ↔ r ∈ (newSimpleGrouping.run ops).RolesOf u) ∧
    ((newSimpleGrouping.run ops).HasRole u r = true ↔
      ∃ n, 1 ≤ n ∧ n ≤ 11 ∧ Path (newSimpleGrouping.run ops) (Subject.user u) r n) := by
  refine ⟨simpleGrouping.HasRole_iff _ u r, ?_⟩
  rw [simpleGrouping.HasRole_iff, simpleGrouping.mem_RolesOf, simpleGrouping.run_maxDepth]
  rfl

/-- C1 fails with the bound `maxDepth = 10`: on the chain `u → r1 → … → r11` the only path
from `u` to `r11` has 11 edges, and `HasRole(u, r11)` is true. -/
theorem hasRole_iff_path_counterexample :
    ¬ ((newSimpleGrouping.run chainOps).HasRole ⟨"u"⟩ ⟨"r11"⟩ = true ↔
      ∃ n, 1 ≤ n ∧ n ≤ 10 ∧
        Path (newSimpleGrouping.run chainOps) (Subject.user ⟨"u"⟩) ⟨"r11"⟩ n) := by
  intro h
  have hp := h.1 (by decide)
  have hmem := (mem_rolesQuery (newSimpleGrouping.run chainOps) 10 (Subject.user ⟨"u"⟩) []
    ⟨"r11"⟩).2 (Or.inr hp)
  revert hmem
  decide

/-! ## The closures of `fatGrouping` against the direct edges -/

/-- C2 at the joins of the grouping test: after `Join(Role 2_0, Role even)` and
`Join(Role 2_0, Role divisible)` the `simpleGrouping` gives user 4 the five roles the test
expects, and the `fatGrouping` over the same calls gives the three direct ones only. -/
theorem fat_rolesOf_misses_super_roles :
    ∃ g, fatGrouping.run 1 (newFatGrouping newSimpleGrouping) superRoleOps = some g ∧
      (∀ r, r ∈ (newSimpleGrouping.run superRoleOps).RolesOf ⟨"4"⟩ ↔
        r ∈ [(⟨"2_0"⟩ : Role), ⟨"3_1"⟩, ⟨"5_4"⟩, ⟨"even"⟩, ⟨"divisible"⟩]) ∧
      (∀ r, r ∈ (g.RolesOf ⟨"4"⟩).getD [] ↔ r ∈ [(⟨"2_0"⟩ : Role), ⟨"3_1"⟩, ⟨"5_4"⟩]) := by
  refine ⟨_, rfl, ?_, ?_⟩
  · intro r
    have h : (newSimpleGrouping.run superRoleOps).RolesOf ⟨"4"⟩
        = [⟨"even"⟩, ⟨"divisible"⟩, ⟨"2_0"⟩, ⟨"3_1"⟩, ⟨"5_4"⟩] := by decide
    rw [h]
    simp only [List.mem_cons, List.mem_singleton, List.not_mem_nil, or_false]
    tauto
  · intro r
    have h : ∀ g, fatGrouping.run 1 (newFatGrouping newSimpleGrouping) superRoleOps = some g →
        (g.RolesOf ⟨"4"⟩).getD [] = [⟨"5_4"⟩, ⟨"3_1"⟩, ⟨"2_0"⟩] := by decide
    rw [h _ rfl]
    simp only [List.mem_cons, List.mem_singleton, List.not_mem_nil, or_false]
    tauto

/-- C3 at the test case `User 1`, `Role 2_0`: with user 0 in `2_0` and user 1 in `2_1`,
`fatGrouping.HasRole(User 1, Role 2_0)` is true although user 1 is not in `UsersOf(2_0)`. -/
theorem fat_hasRole_ignores_user :
    ∃ g, fatGrouping.run 1 (newFatGrouping newSimpleGrouping)
        [Op.join (Subject.user ⟨"0"⟩) ⟨"2_0"⟩, Op.join (Subject.user ⟨"1"⟩) ⟨"2_1"⟩] = some g ∧
      g.HasRole ⟨"1"⟩ ⟨"2_0"⟩ = true ∧ g.UsersOf ⟨"2_0"⟩ = some [⟨"0"⟩] ∧
      (⟨"1"⟩ : User) ∉ (g.UsersOf ⟨"2_0"⟩).getD [] :=
  ⟨_, rfl, by decide, by decide, by decide⟩

/-- C4 at `Join(User u, Role a); Join(User v, Role b); Leave(User u, Role b)`: the edge
`u → b` does not exist, `u` has another role and `b` another member, and `Leave` returns
nil. -/
theorem leave_missing_edge_returns_nil :
    (Subject.user ⟨"u"⟩) ∉ (((newSimpleGrouping.run
        [Op.join (Subject.user ⟨"u"⟩) ⟨"a"⟩, Op.join (Subject.user ⟨"v"⟩) ⟨"b"⟩]).DirectSubjectsOf
          ⟨"b"⟩).getD []) ∧
    (⟨"b"⟩ : Role) ∉ (((newSimpleGrouping.run
        [Op.join (Subject.user ⟨"u"⟩) ⟨"a"⟩, Op.join (Subject.user ⟨"v"⟩) ⟨"b"⟩]).DirectRolesOf
          (Subject.user ⟨"u"⟩)).getD []) ∧
    ((newSimpleGrouping.run
        [Op.join (Subject.user ⟨"u"⟩) ⟨"a"⟩, Op.join (Subject.user ⟨"v"⟩) ⟨"b"⟩]).Leave
          (Subject.user ⟨"u"⟩) ⟨"b"⟩).2 = none := by
  decide

/-- C5 at `Join(Role a, Role b); RemoveRole(Role a)`: the edge `a → b`, where the removed
role is the child, is still in both maps. -/
theorem removeRole_keeps_edges_to_parents :
    ((newSimpleGrouping.run [Op.join (Subject.role ⟨"a"⟩) ⟨"b"⟩]).RemoveRole ⟨"a"⟩).1.DirectRolesOf
        (Subject.role ⟨"a"⟩) = some [⟨"b"⟩] ∧
    ((newSimpleGrouping.run [Op.join (Subject.role ⟨"a"⟩) ⟨"b"⟩]).RemoveRole ⟨"a"⟩).1.DirectSubjectsOf
        ⟨"b"⟩ = some [Subject.role ⟨"a"⟩] := by
  decide

/-- No path of direct edges leaves a subject whose inner map of parents is nil or empty. -/
theorem Path.not_of_rangeOf_nil {e : simpleGrouping} {sub : Subject} {x : Role} {n : Nat}
    (h : rangeOf e.parents sub = []) : ¬ Path e sub x n := by
  intro hp
  rcases hp.inv with ⟨-, hx⟩ | ⟨mid, n', -, hm, -⟩
  · rw [h] at hx
    cases hx
  · rw [h] at hm
    cases hm

/-- A path from a subject whose only parent is `a` starts with the edge to `a`. -/
theorem Path.of_rangeOf_single {e : simpleGrouping} {sub : Subject} {a x : Role} {n : Nat}
    (h : rangeOf e.parents sub = [a]) (hp : Path e sub x n) :
    x = a ∨ ∃ n', Path e (Subject.role a) x n' := by
  rcases hp.inv with ⟨-, hx⟩ | ⟨mid, n', -, hm, hp'⟩
  · rw [h] at hx
    exact Or.inl (List.mem_singleton.1 hx)
  · rw [h] at hm
    rw [List.mem_singleton.1 hm] at hp'
    exact Or.inr ⟨n', hp'⟩

/-- C6 on the `fatGrouping`, at `Join(Role a, Role b); Join(User u, Role a);
Leave(Role a, Role b)`: the call returns nil, no path of direct edges from `u` to `b` is
left, and `b` is still in `RolesOf(u)`. -/
theorem fat_leave_keeps_role_of_descendant :
    ∃ g0 g1, fatGrouping.run 1 (newFatGrouping newSimpleGrouping) nestedOps = some g0 ∧
      g0.Leave 1 (Subject.role ⟨"a"⟩) ⟨"b"⟩ = some (g1, none) ∧
      (¬ ∃ n, Path g1.Grouping (Subject.user ⟨"u"⟩) ⟨"b"⟩ n) ∧
      (⟨"b"⟩ : Role) ∈ (g1.RolesOf ⟨"u"⟩).getD [] := by
  refine ⟨_, _, rfl, rfl, ?_, by decide⟩
  rintro ⟨n, hp⟩
  rcases Path.of_rangeOf_single (a := ⟨"a"⟩) (by decide) hp with h | ⟨n', hp'⟩
  · exact absurd h (by decide)
  · exact Path.not_of_rangeOf_nil (by decide) hp'

/-- C7 on the `fatGrouping`, at `Join(Role a, Role b); Join(User u, Role a);
RemoveRole(Role b)`: the call returns nil and `b`, of which `u` was an indirect member, is
still in `RolesOf(u)`. -/
theorem fat_removeRole_keeps_role_of_indirect_member :
    ∃ g0 g1, fatGrouping.run 1 (newFatGrouping newSimpleGrouping) nestedOps = some g0 ∧
      g0.RemoveRole 1 ⟨"b"⟩ = some (g1, none) ∧
      (⟨"b"⟩ : Role) ∉ g1.AllRoles ∧
      (⟨"b"⟩ : Role) ∈ (g1.RolesOf ⟨"u"⟩).getD [] :=
  ⟨_, _, rfl, rfl, by decide, by decide⟩

/-- C8 on the `fatGrouping`, at `Join(User u, Role a); RemoveUser(User u)`: the call
returns nil, `u` is gone from `AllUsers()` and from `UsersOf(a)`, and `RolesOf(u)` still
holds `a`. -/
theorem fat_removeUser_keeps_rolesOf :
    ∃ g0 g1, fatGrouping.run 1 (newFatGrouping newSimpleGrouping)
        [Op.join (Subject.user ⟨"u"⟩) ⟨"a"⟩] = some g0 ∧
      g0.RemoveUser 1 ⟨"u"⟩ = some (g1, none) ∧
      (⟨"u"⟩ : User) ∉ g1.AllUsers ∧ g1.UsersOf ⟨"a"⟩ = some [] ∧
      g1.RolesOf ⟨"u"⟩ = some [⟨"a"⟩] :=
  ⟨_, _, rfl, rfl, by decide, by decide, by decide⟩

/-! ## The direct edges of `simpleGrouping` stay symmetric -/

theorem symmetric_new : Symmetric newSimpleGrouping := by
  intro s r
  simp [newSimpleGrouping, rangeOf, GoMap.get]

theorem symmetric_Join (e : simpleGrouping) (h : Symmetric e) (sub : Subject) (role : Role) :
    Symmetric (e.Join sub role).1 := by
  intro s r
  simp only [simpleGrouping.Join, mem_rangeOf_putKey, rangeOf_makeIfNil]
  rw [h s r]
  tauto

theorem symmetric_Leave (e : simpleGrouping) (h : Symmetric e) (sub : Subject) (role : Role) :
    Symmetric (e.Leave sub role).1 := by
  intro s r
  unfold simpleGrouping.Leave
  cases hp : e.parents.get sub with
  | none => exact h s r
  | some ps =>
    simp only
    cases hc : e.children.get role with
    | none =>
      simp only [mem_rangeOf_dropKey]
      rw [h s r]
      constructor
      · exact fun hx => hx.1
      · intro hx
        refine ⟨hx, ?_⟩
        rintro ⟨rfl, rfl⟩
        simp [rangeOf, hc] at hx
    | some cs =>
      simp only [mem_rangeOf_dropKey]
      rw [h s r]
      tauto

theorem symmetric_RemoveRole (e : simpleGrouping) (h : Symmetric e) (role : Role) :
    Symmetric (e.RemoveRole role).1 := by
  intro s r
  simp only [simpleGrouping.RemoveRole, mem_rangeOf_foldl_dropKey]
  by_cases hr : role = r
  · subst hr
    rw [rangeOf_del_self, h s role]
    simp
  · rw [rangeOf_del_ne _ hr, h s r]
    have hr' : ¬ r = role := fun hh => hr hh.symm
    tauto

theorem symmetric_RemoveUser (e : simpleGrouping) (h : Symmetric e) (user : User) :
    Symmetric (e.RemoveUser user).1 := by
  intro s r
  simp only [simpleGrouping.RemoveUser, mem_rangeOf_foldl_dropKey]
  by_cases hs : Subject.user user = s
  · subst hs
    rw [rangeOf_del_self, ← h (Subject.user user) r]
    simp
  · rw [rangeOf_del_ne _ hs, h s r]
    have hs' : ¬ s = Subject.user user := fun hh => hs hh.symm
    tauto

theorem symmetric_step (e : simpleGrouping) (h : Symmetric e) (op : Op) :
    Symmetric (e.step op).1 := by
  cases op with
  | join sub role => exact symmetric_Join e h sub role
  | leave sub role => exact symmetric_Leave e h sub role
  | removeRole role => exact symmetric_RemoveRole e h role
  | removeUser user => exact symmetric_RemoveUser e h user

theorem symmetric_run (ops : List Op) (e : simpleGrouping) (h : Symmetric e) :
    Symmetric (e.run ops) := by
  induction ops generalizing e with
  | nil => exact h
  | cons op ops ih => exact ih _ (symmetric_step e h op)

/-! ## The bounded traversal of `UsersOf` -/

theorem Down.unfoldStep {e : simpleGrouping} {role : Role} {s : Subject} {m : Nat}
    (h : Down e role s m) :
    (m = 1 ∧ s ∈ rangeOf e.children role) ∨
      ∃ mid n, m = n + 1 ∧ Subject.role mid ∈ rangeOf e.children role ∧ Down e mid s n := by
  cases h with
  | edge h => exact Or.inl ⟨rfl, h⟩
  | step hm hd => exact Or.inr ⟨_, _, rfl, hm, hd⟩

theorem Down.length_pos {e : simpleGrouping} {role : Role} {s : Subject} {m : Nat}
    (h : Down e role s m) : 1 ≤ m := by
  cases h with
  | edge h => exact le_refl 1
  | step hm hd => exact Nat.le_add_left 1 _

theorem mem_foldl_usersQuery (e : simpleGrouping) (k : Nat)
    (ih : ∀ role acc x, x ∈ e.usersQuery k role acc ↔
      x ∈ acc ∨ ∃ n, 1 ≤ n ∧ n ≤ k ∧ Down e role (Subject.user x) n)
    (l : List Subject) (acc : List User) (x : User) :
    x ∈ l.foldl
        (fun acc ch =>
          match ch with
          | Subject.user u => acc.insert u
          | Subject.role r => e.usersQuery k r acc) acc ↔
      x ∈ acc ∨ Subject.user x ∈ l ∨
        ∃ r, Subject.role r ∈ l ∧ ∃ n, 1 ≤ n ∧ n ≤ k ∧ Down e r (Subject.user x) n := by
  induction l generalizing acc with
  | nil => simp
  | cons a l ihl =>
    rw [List.foldl_cons, ihl]
    cases a with
    | user u =>
      simp only [List.mem_insert_iff, List.mem_cons, Subject.user.injEq, reduceCtorEq, false_or]
      constructor
      · rintro ((h | h) | h | ⟨r, hr, h⟩)
        · exact Or.inr (Or.inl (Or.inl h))
        · exact Or.inl h
        · exact Or.inr (Or.inl (Or.inr h))
        · exact Or.inr (Or.inr ⟨r, hr, h⟩)
      · rintro (h | (h | h) | ⟨r, hr, h⟩)
        · exact Or.inl (Or.inr h)
        · exact Or.inl (Or.inl h)
        · exact Or.inr (Or.inl h)
        · exact Or.inr (Or.inr ⟨r, hr, h⟩)
    | role r0 =>
      simp only [ih, List.mem_cons, Subject.role.injEq, reduceCtorEq, false_or]
      constructor
      · rintro ((h | h) | h | ⟨r, hr, h⟩)
        · exact Or.inl h
        · exact Or.inr (Or.inr ⟨r0, Or.inl rfl, h⟩)
        · exact Or.inr (Or.inl h)
        · exact Or.inr (Or.inr ⟨r, Or.inr hr, h⟩)
      · rintro (h | h | ⟨r, hr | hr, h⟩)
        · exact Or.inl (Or.inl h)
        · exact Or.inr (Or.inl h)
        · subst hr
          exact Or.inl (Or.inr h)
        · exact Or.inr (Or.inr ⟨r, hr, h⟩)

/-- What the closure `query` of `UsersOf` adds with `k` levels left: the users at the lower
end of a path of 1 to `k` direct edges. -/
theorem mem_usersQuery (e : simpleGrouping) :
    ∀ (k : Nat) (role : Role) (acc : List User) (x : User),
      x ∈ e.usersQuery k role acc ↔
        x ∈ acc ∨ ∃ n, 1 ≤ n ∧ n ≤ k ∧ Down e role (Subject.user x) n
  | 0, role, acc, x => by
    simp only [simpleGrouping.usersQuery]
    constructor
    · exact Or.inl
    · rintro (h | ⟨n, h1, h2, -⟩)
      · exact h
      · omega
  | k + 1, role, acc, x => by
    rw [simpleGrouping.usersQuery, mem_foldl_usersQuery e k (mem_usersQuery e k)]
    constructor
    · rintro (h | h | ⟨r, hr, n, h1, h2, hd⟩)
      · exact Or.inl h
      · exact Or.inr ⟨1, le_refl _, by omega, Down.edge h⟩
      · exact Or.inr ⟨n + 1, by omega, by omega, Down.step hr hd⟩
    · rintro (h | ⟨n, h1, h2, hd⟩)
      · exact Or.inl h
      · rcases hd.unfoldStep with ⟨-, hx⟩ | ⟨mid, n', hn, hm, hd'⟩
        · exact Or.inr (Or.inl hx)
        · exact Or.inr (Or.inr ⟨mid, hm, n', hd'.length_pos, by omega, hd'⟩)

theorem simpleGrouping.mem_UsersOf (e : simpleGrouping) (r : Role) (u : User) :
    u ∈ e.UsersOf r ↔ ∃ n, 1 ≤ n ∧ n ≤ e.maxDepth + 1 ∧ Down e r (Subject.user u) n := by
  simp [simpleGrouping.UsersOf, mem_usersQuery]

/-! ## Paths read off `parents` and off `children` -/

theorem Path.snoc {e : simpleGrouping} {s : Subject} {mid role : Role} {n : Nat}
    (hp : Path e s mid n) (h : role ∈ rangeOf e.parents (Subject.role mid)) :
    Path e s role (n + 1) := by
  induction hp with
  | edge h1 => exact Path.step h1 (Path.edge h)
  | step h1 _ ih => exact Path.step h1 (ih h)

theorem Down.extend {e : simpleGrouping} {role mid : Role} {s : Subject} {n : Nat}
    (hd : Down e role (Subject.role mid) n) (h : s ∈ rangeOf e.children mid) :
    Down e role s (n + 1) := by
  generalize hmid : Subject.role mid = t at hd
  induction hd with
  | edge h1 =>
    subst hmid
    exact Down.step h1 (Down.edge h)
  | step h1 _ ih => exact Down.step h1 (ih hmid)

theorem Path.toDown {e : simpleGrouping} (hs : Symmetric e) {s : Subject} {role : Role} {n : Nat}
    (hp : Path e s role n) : Down e role s n := by
  induction hp with
  | edge h => exact Down.edge ((hs _ _).1 h)
  | step h _ ih => exact Down.extend ih ((hs _ _).1 h)

theorem Down.toPath {e : simpleGrouping} (hs : Symmetric e) {s : Subject} {role : Role} {n : Nat}
    (hd : Down e role s n) : Path e s role n := by
  induction hd with
  | edge h => exact Path.edge ((hs _ _).2 h)
  | step h _ ih => exact Path.snoc ih ((hs _ _).2 h)

theorem Path.last {e : simpleGrouping} {s : Subject} {role : Role} {n : Nat}
    (hp : Path e s role n) : ∃ s', role ∈ rangeOf e.parents s' := by
  induction hp with
  | edge h => exact ⟨_, h⟩
  | step _ _ ih => exact ih

theorem Path.first {e : simpleGrouping} {s : Subject} {role : Role} {n : Nat}
    (hp : Path e s role n) : ∃ r, r ∈ rangeOf e.parents s := by
  cases hp with
  | edge h => exact ⟨_, h⟩
  | step h _ => exact ⟨_, h⟩

/-! ## `AllRoles` and `AllUsers` -/

theorem mem_foldl_insert {α : Type} [DecidableEq α] (l acc : List α) (x : α) :
    x ∈ l.foldl (fun roles role => roles.insert role) acc ↔ x ∈ acc ∨ x ∈ l := by
  induction l generalizing acc with
  | nil => simp
  | cons a l ih =>
    rw [List.foldl_cons, ih, List.mem_insert_iff, List.mem_cons]
    tauto

theorem simpleGrouping.mem_AllRoles (e : simpleGrouping) (r : Role) :
    r ∈ e.AllRoles ↔ e.children.get r ≠ none := by
  simp [simpleGrouping.AllRoles, mem_foldl_insert, GoMap.mem_keys_iff]

theorem mem_foldl_users (l : List Subject) (acc : List User) (x : User) :
    x ∈ l.foldl
        (fun users sub =>
          match sub with
          | Subject.user u => users.insert u
          | Subject.role _ => users) acc ↔ x ∈ acc ∨ Subject.user x ∈ l := by
  induction l generalizing acc with
  | nil => simp
  | cons a l ih =>
    rw [List.foldl_cons, ih]
    cases a with
    | user u =>
      simp only [List.mem_insert_iff, List.mem_cons, Subject.user.injEq]
      tauto
    | role r =>
      simp only [List.mem_cons, reduceCtorEq, false_or]

theorem simpleGrouping.mem_AllUsers (e : simpleGrouping) (u : User) :
    u ∈ e.AllUsers ↔ e.parents.get (Subject.user u) ≠ none := by
  simp [simpleGrouping.AllUsers, mem_foldl_users, GoMap.mem_keys_iff]

theorem Down.lastEdge {e : simpleGrouping} {role : Role} {s : Subject} {n : Nat}
    (hd : Down e role s n) : ∃ r, s ∈ rangeOf e.children r := by
  induction hd with
  | edge h => exact ⟨_, h⟩
  | step _ _ ih => exact ih

/-! ## Removal on `simpleGrouping` -/

/-- `Leave` returns an error exactly when one of the two inner maps is nil. -/
theorem simple_leave_error_iff (e : simpleGrouping) (sub : Subject) (role : Role) :
    (e.Leave sub role).2 ≠ none ↔ e.parents.get sub = none ∨ e.children.get role = none := by
  unfold simpleGrouping.Leave
  cases hp : e.parents.get sub with
  | none => simp
  | some ps =>
    simp only
    cases hc : e.children.get role with
    | none => simp
    | some cs => simp

/-- The direction of C4 that holds: after any calls, a `Leave` that returns an error had no
direct edge `sub → role` to remove. -/
theorem simple_leave_error_without_edge (ops : List Op) (sub : Subject) (role : Role)
    (h : ((newSimpleGrouping.run ops).Leave sub role).2 ≠ none) :
    role ∉ ((newSimpleGrouping.run ops).DirectRolesOf sub).getD [] := by
  have hs : Symmetric (newSimpleGrouping.run ops) := symmetric_run ops _ symmetric_new
  rcases (simple_leave_error_iff _ sub role).1 h with hp | hc
  · simp [simpleGrouping.DirectRolesOf, hp]
  · intro hmem
    have := (hs sub role).1 hmem
    simp [rangeOf, hc] at this

/-- The `simpleGrouping` half of C6: after any calls and a `Leave`, a role to which no path
of direct edges leads from `u` is not in `RolesOf(u)` and does not have `u` in `UsersOf`. -/
theorem simple_leave_drops_unreachable (ops : List Op) (sub : Subject) (role : Role) (u : User)
    (hno : ¬ ∃ n, Path ((newSimpleGrouping.run ops).Leave sub role).1 (Subject.user u) role n) :
    role ∉ ((newSimpleGrouping.run ops).Leave sub role).1.RolesOf u ∧
    u ∉ ((newSimpleGrouping.run ops).Leave sub role).1.UsersOf role := by
  have hs : Symmetric ((newSimpleGrouping.run ops).Leave sub role).1 :=
    symmetric_Leave _ (symmetric_run ops _ symmetric_new) sub role
  constructor
  · intro h
    obtain ⟨n, -, -, hp⟩ := (simpleGrouping.mem_RolesOf _ u role).1 h
    exact hno ⟨n, hp⟩
  · intro h
    obtain ⟨n, -, -, hd⟩ := (simpleGrouping.mem_UsersOf _ role u).1 h
    exact hno ⟨n, hd.toPath hs⟩

/-- The `simpleGrouping` half of C7: after any calls, `RemoveRole(r)` returns nil and leaves
`r` out of `AllRoles()` and out of `RolesOf(u)` for every user. -/
theorem simple_removeRole_clears_role (ops : List Op) (r : Role) :
    ((newSimpleGrouping.run ops).RemoveRole r).2 = none ∧
    r ∉ ((newSimpleGrouping.run ops).RemoveRole r).1.AllRoles ∧
    ∀ u, r ∉ ((newSimpleGrouping.run ops).RemoveRole r).1.RolesOf u := by
  have hs : Symmetric (newSimpleGrouping.run ops) := symmetric_run ops _ symmetric_new
  refine ⟨rfl, ?_, ?_⟩
  · rw [simpleGrouping.mem_AllRoles]
    simp [simpleGrouping.RemoveRole, GoMap.get_del_self]
  · intro u h
    obtain ⟨n, -, -, hp⟩ := (simpleGrouping.mem_RolesOf _ u r).1 h
    obtain ⟨s', hs'⟩ := hp.last
    simp only [simpleGrouping.RemoveRole, mem_rangeOf_foldl_dropKey] at hs'
    exact hs'.2 ⟨trivial, (hs s' r).1 hs'.1⟩

/-- The `simpleGrouping` half of C8: after any calls, `RemoveUser(u)` returns nil and leaves
`u` out of `AllUsers()` and out of every `UsersOf(r)`, and `RolesOf(u)` empty. -/
theorem simple_removeUser_clears_user (ops : List Op) (u : User) :
    ((newSimpleGrouping.run ops).RemoveUser u).2 = none ∧
    u ∉ ((newSimpleGrouping.run ops).RemoveUser u).1.AllUsers ∧
    (∀ r, u ∉ ((newSimpleGrouping.run ops).RemoveUser u).1.UsersOf r) ∧
    ((newSimpleGrouping.run ops).RemoveUser u).1.RolesOf u = [] := by
  have hs : Symmetric (newSimpleGrouping.run ops) := symmetric_run ops _ symmetric_new
  refine ⟨rfl, ?_, ?_, ?_⟩
  · rw [simpleGrouping.mem_AllUsers]
    simp [simpleGrouping.RemoveUser, GoMap.get_del_self]
  · intro r h
    obtain ⟨n, -, -, hd⟩ := (simpleGrouping.mem_UsersOf _ r u).1 h
    obtain ⟨r', hr'⟩ := hd.lastEdge
    simp only [simpleGrouping.RemoveUser, mem_rangeOf_foldl_dropKey] at hr'
    exact hr'.2 ⟨trivial, (hs (Subject.user u) r').2 hr'.1⟩
  · simp [simpleGrouping.RolesOf, simpleGrouping.rolesQuery, simpleGrouping.RemoveUser,
      rangeOf_del_self]

/-! ## Actions as bit sets -/

theorem or_eq_right_iff_and_eq (a b : Nat) : b ||| a = a ↔ a &&& b = b := by
  constructor
  · intro h
    apply Nat.eq_of_testBit_eq
    intro i
    have hi := congrArg (fun x => Nat.testBit x i) h
    simp only [Nat.testBit_or] at hi
    rw [Nat.testBit_and]
    cases ha : a.testBit i <;> cases hb : b.testBit i <;> simp_all
  · intro h
    apply Nat.eq_of_testBit_eq
    intro i
    have hi := congrArg (fun x => Nat.testBit x i) h
    simp only [Nat.testBit_and] at hi
    rw [Nat.testBit_or]
    cases ha : a.testBit i <;> cases hb : b.testBit i <;> simp_all

theorem testBit_Difference (a b : Action) (i : Nat) :
    (Action.Difference a b).testBit i = (a.testBit i && !b.testBit i) := by
  unfold Action.Difference
  rw [Nat.testBit_bitwise (by rfl)]

/-- C14: for all actions `a` and `b`, `a.Includes(b)` is true exactly when `a & b == b`,
and `a.IsIn(b)` is `b.Includes(a)`. -/
theorem includes_iff_and_eq (a b : Action) :
    (Action.Includes a b = true ↔ a &&& b = b) ∧ Action.IsIn a b = Action.Includes b a := by
  refine ⟨?_, rfl⟩
  simp only [Action.Includes, Action.IsIn, decide_eq_true_eq]
  exact or_eq_right_iff_and_eq a b

/-- C15: every action includes itself and `None`, `a.Difference(a)` is `None`, and for all
`a`, `b` the difference `a.Difference(b)` shares no bit with `b` and, together with `a & b`,
gives back `a`. -/
theorem action_set_laws (a b : Action) :
    Action.Includes a a = true ∧ Action.Includes a Action.None = true ∧
    Action.Difference a a = Action.None ∧
    Action.Difference a b &&& b = 0 ∧
    Action.Difference a b ||| (a &&& b) = a := by
  refine ⟨?_, ?_, ?_, ?_, ?_⟩
  · simp [Action.Includes, Action.IsIn]
  · simp [Action.Includes, Action.IsIn, Action.None]
  · apply Nat.eq_of_testBit_eq
    intro i
    rw [testBit_Difference]
    simp [Action.None]
  · apply Nat.eq_of_testBit_eq
    intro i
    rw [Nat.testBit_and, testBit_Difference]
    cases a.testBit i <;> cases b.testBit i <;> simp
  · apply Nat.eq_of_testBit_eq
    intro i
    rw [Nat.testBit_or, Nat.testBit_and, testBit_Difference]
    cases a.testBit i <;> cases b.testBit i <;> simp

/-! ## `Action.Split` -/

theorem splitLoop_zero (a : Action) : ∀ (n : Nat) (out : List Action),
    Action.splitLoop a n 0 out = none
  | 0, _ => rfl
  | n + 1, out => by
    have h := splitLoop_zero a n out
    simpa [Action.splitLoop] using h

theorem shift_two_pow (i : Nat) (hi : i < 31) : (2 ^ i <<< 1) % 2 ^ 32 = 2 ^ (i + 1) := by
  rw [Nat.shiftLeft_eq, ← Nat.pow_succ]
  exact Nat.mod_eq_of_lt (Nat.pow_lt_pow_right (by decide) (by omega))

theorem shift_bit31 : (2 ^ 31 <<< 1) % 2 ^ 32 = 0 := by decide

/-- Once bit 31 of `a` is set the loop condition `op <= a` never fails: `op` runs through
the powers of two up to `2 ^ 31` and then stays 0. -/
theorem splitLoop_bit31 (a : Action) (ha : 2 ^ 31 ≤ a) : ∀ (n i : Nat) (out : List Action),
    i ≤ 31 → Action.splitLoop a n (2 ^ i) out = none
  | 0, _, _, _ => rfl
  | n + 1, i, out, hi => by
    have hle : 2 ^ i ≤ a := le_trans (Nat.pow_le_pow_right (by decide) hi) ha
    rw [Action.splitLoop, if_pos hle]
    rcases Nat.lt_or_eq_of_le hi with h | h
    · rw [shift_two_pow i h]
      exact splitLoop_bit31 a ha n (i + 1) _ (by omega)
    · subst h
      rw [shift_bit31]
      exact splitLoop_zero a n _

theorem two_pow_and (a i : Nat) : 2 ^ i &&& a = if a.testBit i then 2 ^ i else 0 := by
  apply Nat.eq_of_testBit_eq
  intro j
  rw [Nat.testBit_and, Nat.testBit_two_pow]
  by_cases hij : i = j
  · subst hij
    cases h : a.testBit i <;> simp
  · cases h : a.testBit i <;> simp [hij, Nat.testBit_two_pow]

theorem two_pow_and_pos (a i : Nat) : 2 ^ i &&& a > 0 ↔ a.testBit i = true := by
  rw [two_pow_and]
  cases h : a.testBit i
  · simp
  · simp [Nat.two_pow_pos]

/-- The loop of `Split` below bit 31, started at `op = 2 ^ i`: it appends the set bits of
`a` from bit `i` on, in increasing order, and stops. -/
theorem splitLoop_below_bit31 (a : Action) (ha : a < 2 ^ 31) :
    ∀ (d i n : Nat) (out : List Action), i + d = 31 → d + 1 ≤ n →
      Action.splitLoop a n (2 ^ i) out =
        some (out ++ ((List.range' i d).filter (fun j => a.testBit j)).map (fun j => 2 ^ j))
  | 0, i, n, out, hid, hn => by
    obtain ⟨m, rfl⟩ : ∃ m, n = m + 1 := ⟨n - 1, by omega⟩
    have hi : i = 31 := by omega
    subst hi
    rw [Action.splitLoop, if_neg (Nat.not_le.2 ha)]
    simp
  | d + 1, i, n, out, hid, hn => by
    obtain ⟨m, rfl⟩ : ∃ m, n = m + 1 := ⟨n - 1, by omega⟩
    rw [Action.splitLoop]
    by_cases hle : 2 ^ i ≤ a
    · rw [if_pos hle, shift_two_pow i (by omega),
        splitLoop_below_bit31 a ha d (i + 1) m _ (by omega) (by omega)]
      have hr : List.range' i (d + 1) = i :: List.range' (i + 1) d := rfl
      rw [hr, List.filter_cons]
      by_cases hb : a.testBit i = true
      · rw [if_pos ((two_pow_and_pos a i).2 hb), if_pos hb]
        simp
      · rw [if_neg (fun h => hb ((two_pow_and_pos a i).1 h)), if_neg hb]
    · rw [if_neg hle]
      have hnil : (List.range' i (d + 1)).filter (fun j => a.testBit j) = [] := by
        rw [List.filter_eq_nil_iff]
        intro j hj
        have hij : i ≤ j := (List.mem_range'_1.1 hj).1
        have : a < 2 ^ j :=
          lt_of_lt_of_le (Nat.lt_of_not_le hle) (Nat.pow_le_pow_right (by decide) hij)
        simp [Nat.testBit_lt_two_pow this]
      rw [hnil]
      simp

theorem testBit_foldl_or (l : List Nat) (z j : Nat) :
    (l.foldl (fun x y => x ||| y) z).testBit j = (z.testBit j || l.any (fun x => x.testBit j)) := by
  induction l generalizing z with
  | nil => simp
  | cons x l ih =>
    rw [List.foldl_cons, ih, Nat.testBit_or, List.any_cons, Bool.or_assoc]

/-- The part of C13 that holds: for an action below `2 ^ 31`, `Split` returns after at most
32 tests of its loop condition, with the single-bit actions `2 ^ i` of the set bits `i` of
`a` in increasing order; their bitwise OR is `a`. -/
theorem split_below_bit31 (a : Action) (ha : a < 2 ^ 31) (n : Nat) (hn : 32 ≤ n) :
    Action.Split n a =
      some (((List.range 32).filter (fun i => a.testBit i)).map (fun i => 2 ^ i)) ∧
    (((List.range 32).filter (fun i => a.testBit i)).map (fun i => 2 ^ i)).foldl
      (fun x y => x ||| y) 0 = a := by
  constructor
  · have h := splitLoop_below_bit31 a ha 31 0 n [] (by omega) (by omega)
    have h31 : a.testBit 31 = false := Nat.testBit_lt_two_pow ha
    rw [Action.Split]
    simp only [pow_zero, List.nil_append] at h
    rw [h, List.range_succ, List.filter_append, List.range_eq_range']
    simp [h31]
  · apply Nat.eq_of_testBit_eq
    intro j
    rw [testBit_foldl_or]
    simp only [Nat.zero_testBit, Bool.false_or, List.any_map]
    by_cases hj : j < 32
    · cases hb : a.testBit j
      · rw [List.any_eq_false]
        intro i hi
        have hi' := (List.mem_filter.1 hi).2
        simp only [Function.comp, Nat.testBit_two_pow]
        intro hij
        have : i = j := by simpa using hij
        subst this
        simp [hb] at hi'
      · rw [List.any_eq_true]
        exact ⟨j, List.mem_filter.2 ⟨List.mem_range.2 hj, hb⟩, by simp [Nat.testBit_two_pow]⟩
    · have hlt : a < 2 ^ j :=
        lt_of_lt_of_le ha (Nat.pow_le_pow_right (by decide) (by omega))
      rw [Nat.testBit_lt_two_pow hlt, List.any_eq_false]
      intro i hi
      have hi' := List.mem_range.1 (List.mem_filter.1 hi).1
      simp only [Function.comp, Nat.testBit_two_pow]
      intro hij
      have : i = j := by simpa using hij
      omega

/-- C13 at the action `1 << 31`: whatever the number `n` of tests of the loop condition
allowed, `Split` has not returned; after `op = 1 << 31` the shift gives `op = 0`, and
`0 <= a` holds for ever. -/
theorem split_bit31_never_returns (n : Nat) : Action.Split n (2 ^ 31) = none :=
  splitLoop_bit31 (2 ^ 31) (le_refl _) n 0 [] (by decide)

/-! ## `ResetActions` -/

theorem shift_one (i : Nat) (hi : i < 32) : (1 <<< i) % 2 ^ 32 = 2 ^ i := by
  rw [Nat.one_shiftLeft]
  exact Nat.mod_eq_of_lt (Nat.pow_lt_pow_right (by decide) hi)

theorem two_pow_sub_one_or (i : Nat) : (2 ^ i - 1) ||| 2 ^ i = 2 ^ (i + 1) - 1 := by
  apply Nat.eq_of_testBit_eq
  intro j
  rw [Nat.testBit_or, Nat.testBit_two_pow_sub_one, Nat.testBit_two_pow_sub_one,
    Nat.testBit_two_pow]
  by_cases h1 : j < i
  · have h2 : j < i + 1 := by omega
    simp [h1, h2]
  · by_cases h3 : i = j
    · have h2 : j < i + 1 := by omega
      simp [h1, h2, h3]
    · have h2 : ¬ j < i + 1 := by omega
      simp [h1, h2, h3]

theorem resetLoop_actions : ∀ (names : List String) (i : Nat)
    (st : GoMap Action String × List Action × Action), i + names.length ≤ 32 →
    (resetLoop i names st).2.1 = st.2.1 ++ (List.range' i names.length).map (fun j => 2 ^ j)
  | [], i, st, _ => by simp [resetLoop]
  | name :: rest, i, (m, acts, all), h => by
    have hlen : i + 1 + rest.length ≤ 32 := by
      simp only [List.length_cons] at h
      omega
    rw [resetLoop, resetLoop_actions rest (i + 1) _ hlen, shift_one i (by omega)]
    simp [List.range']

theorem resetLoop_all : ∀ (names : List String) (i : Nat)
    (st : GoMap Action String × List Action × Action), i + names.length ≤ 32 →
    st.2.2 = 2 ^ i - 1 → (resetLoop i names st).2.2 = 2 ^ (i + names.length) - 1
  | [], i, st, _, hst => by simpa [resetLoop] using hst
  | name :: rest, i, (m, acts, all), h, hst => by
    have hlen : i + 1 + rest.length ≤ 32 := by
      simp only [List.length_cons] at h
      omega
    simp only at hst
    rw [resetLoop, resetLoop_all rest (i + 1) _ hlen
      (by simp only [shift_one i (by omega : i < 32), hst, two_pow_sub_one_or])]
    simp only [List.length_cons]
    congr 2
    omega

theorem resetLoop_get_other (a : Action) : ∀ (names : List String) (i : Nat)
    (st : GoMap Action String × List Action × Action), i + names.length ≤ 32 →
    (∀ j, i ≤ j → j < i + names.length → a ≠ 2 ^ j) →
    (resetLoop i names st).1.get a = st.1.get a
  | [], i, st, _, _ => by simp [resetLoop]
  | name :: rest, i, (m, acts, all), h, ha => by
    simp only [List.length_cons] at h ha
    rw [resetLoop, resetLoop_get_other a rest (i + 1) _ (by omega)
      (fun j h1 h2 => ha j (by omega) (by omega)), shift_one i (by omega)]
    exact GoMap.get_set_ne m (Ne.symm (ha i (le_refl i) (by omega))) name

theorem resetLoop_get : ∀ (names : List String) (i j : Nat)
    (st : GoMap Action String × List Action × Action), i + names.length ≤ 32 →
    j < names.length → (resetLoop i names st).1.get (2 ^ (i + j)) = names[j]?
  | [], i, j, st, _, hj => by simp at hj
  | name :: rest, i, 0, (m, acts, all), h, _ => by
    simp only [List.length_cons] at h
    rw [resetLoop, resetLoop_get_other (2 ^ (i + 0)) rest (i + 1) _ (by omega)
      (fun j h1 _ heq => by
        have := Nat.pow_right_injective (le_refl 2) heq
        omega), shift_one i (by omega)]
    simp [GoMap.get_set_self]
  | name :: rest, i, j + 1, (m, acts, all), h, hj => by
    simp only [List.length_cons] at h hj
    have hij : i + (j + 1) = i + 1 + j := by omega
    rw [resetLoop, hij, resetLoop_get rest (i + 1) j _ (by omega) (by omega)]
    simp

/-- C16: for at most 32 names `ResetActions` returns the actions `2 ^ 0, …, 2 ^ (k - 1)` in
input order, leaves `AllActions = 2 ^ k - 1` and a registry that maps `2 ^ i` to
`names[i]` and has no other key, whatever was registered before; without a call the
registry is `Exec = 1`, `Write = 2`, `Read = 4` with `AllActions = 7`. -/
theorem resetActions_registry (old : Registry) (names : List String)
    (h : names.length ≤ 32) :
    (ResetActions old names).2 = (List.range names.length).map (fun i => 2 ^ i) ∧
    (ResetActions old names).1.AllActions = 2 ^ names.length - 1 ∧
    (∀ i, i < names.length → (ResetActions old names).1.actionNames.get (2 ^ i) = names[i]?) ∧
    (∀ a : Action, (∀ i, i < names.length → a ≠ 2 ^ i) →
      (ResetActions old names).1.actionNames.get a = none) ∧
    (Action.Exec = 1 ∧ Action.Write = 2 ∧ Action.Read = 4 ∧ Registry.initial.AllActions = 7) ∧
    (Registry.initial.actionNames.get 1 = some "exec" ∧
      Registry.initial.actionNames.get 2 = some "write" ∧
      Registry.initial.actionNames.get 4 = some "read" ∧
      ∀ a : Action, a ≠ 1 → a ≠ 2 → a ≠ 4 → Registry.initial.actionNames.get a = none) := by
  refine ⟨?_, ?_, ?_, ?_, ⟨by decide, by decide, by decide, by decide⟩,
    ⟨by decide, by decide, by decide, ?_⟩⟩
  · simp only [ResetActions]
    rw [resetLoop_actions names 0 _ (by omega), List.range_eq_range']
    simp
  · simp only [ResetActions]
    rw [resetLoop_all names 0 _ (by omega) (by simp)]
    simp
  · intro i hi
    have := resetLoop_get names 0 i ([], [], 0) (by omega) hi
    simpa [ResetActions] using this
  · intro a ha
    simp only [ResetActions]
    rw [resetLoop_get_other a names 0 _ (by omega)
      (fun j _ h2 => ha j (by omega))]
    rfl
  · intro a h1 h2 h4
    have e1 : Action.Exec = 1 := by decide
    have e2 : Action.Write = 2 := by decide
    have e4 : Action.Read = 4 := by decide
    simp only [Registry.initial, GoMap.get, e1, e2, e4]
    rw [if_neg (Ne.symm h4), if_neg (Ne.symm h2), if_neg (Ne.symm h1)]

/-- C16 at `ResetActions("get", "put")` after the initial registry: the actions are
`[1, 2]`, `AllActions` is 3, and the old name of 4 is gone. -/
theorem resetActions_registry_witness :
    (ResetActions Registry.initial ["get", "put"]).2 = [1, 2] ∧
    (ResetActions Registry.initial ["get", "put"]).1.AllActions = 3 ∧
    (ResetActions Registry.initial ["get", "put"]).1.actionNames.get 4 = none :=
  ⟨(resetActions_registry Registry.initial ["get", "put"] (by decide)).1,
    (resetActions_registry Registry.initial ["get", "put"] (by decide)).2.1,
    (resetActions_registry Registry.initial ["get", "put"] (by decide)).2.2.2.1 4
      (by decide)⟩

/-! ## `Action.String` -/

/-- The part of C17 that holds: for an action below `2 ^ 31` and any registry, `String`
returns the names of the set bits in increasing bit order, `"unknown"` for a bit without a
name, joined by `"|"`; on the initial registry `ReadWriteExec`, `Read` and `None` print as
`"exec|write|read"`, `"read"` and `""`. -/
theorem string_below_bit31 (reg : Registry) (a : Action) (ha : a < 2 ^ 31) (n : Nat)
    (hn : 32 ≤ n) :
    Action.String reg n a =
      some ("|".intercalate (((List.range 32).filter (fun i => a.testBit i)).map
        (fun i => (reg.actionNames.get (2 ^ i)).getD "unknown"))) ∧
    Action.String Registry.initial 32 Action.ReadWriteExec = some "exec|write|read" ∧
    Action.String Registry.initial 32 Action.Read = some "read" ∧
    Action.String Registry.initial 32 Action.None = some "" := by
  refine ⟨?_, by decide, by decide, by decide⟩
  rw [Action.String, (split_below_bit31 a ha n hn).1, Option.map_some', List.map_map]
  rfl

/-- C17 at the action `1 << 31`: for every registry and every number `n` of tests of the
loop condition allowed to `Split`, `String` has not returned. -/
theorem string_bit31_never_returns (reg : Registry) (n : Nat) :
    Action.String reg n (2 ^ 31) = none := by
  have h : Action.Split n (2 ^ 31) = none :=
    splitLoop_bit31 (2 ^ 31) (le_refl _) n 0 [] (by decide)
  rw [Action.String, h]
  rfl

/-! ## `ParseSubject` -/

theorem hasPrefix_iff (s pre : String) : HasPrefix s pre = true ↔ ∃ rest, s = pre ++ rest := by
  unfold HasPrefix
  rw [List.isPrefixOf_iff_prefix]
  constructor
  · rintro ⟨t, ht⟩
    refine ⟨String.mk t, ?_⟩
    apply String.ext
    rw [String.data_append, ht]
  · rintro ⟨rest, rfl⟩
    exact ⟨rest.data, by rw [String.data_append]⟩

theorem trimPrefix_append (pre rest : String) : TrimPrefix (pre ++ rest) pre = rest := by
  have h : HasPrefix (pre ++ rest) pre = true := (hasPrefix_iff _ _).2 ⟨rest, rfl⟩
  unfold TrimPrefix
  rw [if_pos h]
  apply String.ext
  simp [String.data_append]

theorem not_hasPrefix_user_role (n : String) : HasPrefix ("role:" ++ n) "user:" = false := by
  unfold HasPrefix
  rw [String.data_append]
  have h1 : "role:".data = ['r', 'o', 'l', 'e', ':'] := rfl
  have h2 : "user:".data = ['u', 's', 'e', 'r', ':'] := rfl
  rw [h1, h2]
  simp [List.isPrefixOf]

theorem parseSubject_user (n : String) :
    ParseSubject ("user:" ++ n) = (some (Subject.user ⟨n⟩), none) := by
  have h : HasPrefix ("user:" ++ n) "user:" = true := (hasPrefix_iff _ _).2 ⟨n, rfl⟩
  unfold ParseSubject
  rw [if_pos h, trimPrefix_append]

theorem parseSubject_role (n : String) :
    ParseSubject ("role:" ++ n) = (some (Subject.role ⟨n⟩), none) := by
  have h : HasPrefix ("role:" ++ n) "role:" = true := (hasPrefix_iff _ _).2 ⟨n, rfl⟩
  unfold ParseSubject
  rw [if_neg (by simp [not_hasPrefix_user_role]), if_pos h, trimPrefix_append]

theorem parseSubject_other (str : String) (hu : ¬ ∃ n, str = "user:" ++ n)
    (hr : ¬ ∃ n, str = "role:" ++ n) :
    ParseSubject str = (none, some Error.ErrInvlaidSubject) := by
  unfold ParseSubject
  rw [if_neg (fun h => hu ((hasPrefix_iff _ _).1 h)),
    if_neg (fun h => hr ((hasPrefix_iff _ _).1 h))]

/-- C18, as the code parses: `ParseSubject(str)` returns a nil subject and the
`ErrInvlaidSubject` error exactly when `str` starts with neither `"user:"` nor `"role:"`;
a string `"user:" + n` or `"role:" + n` gives the user or role named `n` and a nil error,
whatever `n` is (empty, or holding blanks). -/
theorem parseSubject_by_kind (str : String) :
    (ParseSubject str = (none, some Error.ErrInvlaidSubject) ↔
      (¬ ∃ n, str = "user:" ++ n) ∧ (¬ ∃ n, str = "role:" ++ n)) ∧
    (∀ n, str = "user:" ++ n → ParseSubject str = (some (Subject.user ⟨n⟩), none)) ∧
    (∀ n, str = "role:" ++ n → ParseSubject str = (some (Subject.role ⟨n⟩), none)) := by
  refine ⟨⟨?_, fun h => parseSubject_other str h.1 h.2⟩, ?_, ?_⟩
  · intro h
    constructor
    · rintro ⟨n, rfl⟩
      rw [parseSubject_user] at h
      cases h
    · rintro ⟨n, rfl⟩
      rw [parseSubject_role] at h
      cases h
  · rintro n rfl
    exact parseSubject_user n
  · rintro n rfl
    exact parseSubject_role n

/-- C18 as the code parses, at `"user: a b"`: the name `" a b"` with its blanks is
accepted. -/
theorem parseSubject_by_kind_witness :
    ParseSubject "user: a b" = (some (Subject.user ⟨" a b"⟩), none) :=
  (parseSubject_by_kind "user: a b").2.1 " a b" (by decide)

/-- C18 fails at `"user:"`: the name is empty and `ParseSubject` returns `User("")` with
a nil error, not `ErrInvlaidSubject`. -/
theorem parseSubject_accepts_empty_name :
    ParseSubject "user:" = (some (Subject.user ⟨""⟩), none) ∧
    (ParseSubject "user:").2 ≠ some Error.ErrInvlaidSubject := by
  decide

/-- C19: `ParseSubject(s.subject())` returns `s` and a nil error for every user and role,
whatever the name; and whenever `ParseSubject(str)` returns a subject `s` with a nil error,
`s.subject()` is `str`. -/
theorem subject_round_trip :
    (∀ s : Subject, ParseSubject s.subject = (some s, none)) ∧
    (∀ (str : String) (s : Subject), ParseSubject str = (some s, none) → s.subject = str) := by
  constructor
  · intro s
    cases s with
    | user u => exact parseSubject_user u.name
    | role r => exact parseSubject_role r.name
  · intro str s h
    by_cases hu : ∃ n, str = "user:" ++ n
    · obtain ⟨n, rfl⟩ := hu
      rw [parseSubject_user] at h
      cases h
      rfl
    · by_cases hr : ∃ n, str = "role:" ++ n
      · obtain ⟨n, rfl⟩ := hr
        rw [parseSubject_role] at h
        cases h
        rfl
      · rw [parseSubject_other str hu hr] at h
        cases h

/-- C19 at `"role:user:x"`: it parses to the role named `"user:x"`, whose `subject()` is the
string again. -/
theorem subject_round_trip_witness :
    (Subject.role ⟨"user:x"⟩).subject = "role:user:x" :=
  subject_round_trip.2 "role:user:x" (Subject.role ⟨"user:x"⟩) (by decide)

/-! ## `Leave` on an existing edge -/

theorem get_ne_none_of_mem_rangeOf {κ α : Type} [DecidableEq κ] (m : GoMap κ (List α)) (k : κ)
    (x : α) (h : x ∈ rangeOf m k) : ∃ s, m.get k = some s := by
  cases hk : m.get k with
  | none => simp [rangeOf, hk] at h
  | some s => exact ⟨s, rfl⟩

theorem simple_leave_of_maps (e : simpleGrouping) (sub : Subject) (r : Role)
    (ps : List Role) (cs : List Subject)
    (hp : e.parents.get sub = some ps) (hc : e.children.get r = some cs) :
    e.Leave sub r =
      ({ e with parents := dropKey e.parents sub r, children := dropKey e.children r sub },
        none) := by
  simp [simpleGrouping.Leave, hp, hc]

/-- C11: in every reachable `simpleGrouping` state that has the direct edge `sub → r`,
`Leave(sub, r)` returns nil, afterwards `r` is not in `DirectRolesOf(sub)` nor `sub` in
`DirectSubjectsOf(r)`, and every other direct edge is in either map exactly when it was
there before. -/
theorem leave_removes_exactly_edge (ops : List Op) (sub : Subject) (r : Role)
    (h : r ∈ ((newSimpleGrouping.run ops).DirectRolesOf sub).getD []) :
    ((newSimpleGrouping.run ops).Leave sub r).2 = none ∧
    r ∉ (((newSimpleGrouping.run ops).Leave sub r).1.DirectRolesOf sub).getD [] ∧
    sub ∉ (((newSimpleGrouping.run ops).Leave sub r).1.DirectSubjectsOf r).getD [] ∧
    ∀ (s' : Subject) (r' : Role), ¬ (s' = sub ∧ r' = r) →
      ((r' ∈ (((newSimpleGrouping.run ops).Leave sub r).1.DirectRolesOf s').getD [] ↔
          r' ∈ ((newSimpleGrouping.run ops).DirectRolesOf s').getD []) ∧
        (s' ∈ (((newSimpleGrouping.run ops).Leave sub r).1.DirectSubjectsOf r').getD [] ↔
          s' ∈ ((newSimpleGrouping.run ops).DirectSubjectsOf r').getD [])) := by
  have hs : Symmetric (newSimpleGrouping.run ops) := symmetric_run ops _ symmetric_new
  have h1 : r ∈ rangeOf (newSimpleGrouping.run ops).parents sub := h
  have h2 : sub ∈ rangeOf (newSimpleGrouping.run ops).children r := (hs sub r).1 h1
  obtain ⟨ps, hp⟩ := get_ne_none_of_mem_rangeOf _ _ _ h1
  obtain ⟨cs, hc⟩ := get_ne_none_of_mem_rangeOf _ _ _ h2
  rw [simple_leave_of_maps _ sub r ps cs hp hc]
  refine ⟨rfl, ?_, ?_, ?_⟩
  · show r ∉ rangeOf (dropKey _ sub r) sub
    rw [mem_rangeOf_dropKey]
    tauto
  · show sub ∉ rangeOf (dropKey _ r sub) r
    rw [mem_rangeOf_dropKey]
    tauto
  · intro s' r' hne
    constructor
    · show r' ∈ rangeOf (dropKey _ sub r) s' ↔ r' ∈ rangeOf _ s'
      rw [mem_rangeOf_dropKey]
      tauto
    · show s' ∈ rangeOf (dropKey _ r sub) r' ↔ s' ∈ rangeOf _ r'
      rw [mem_rangeOf_dropKey]
      tauto

/-- C11 at `Join(User u, Role a); Join(User u, Role b); Leave(User u, Role a)`: the edge
`u → b` is still there. -/
theorem leave_removes_exactly_edge_witness :
    (⟨"b"⟩ : Role) ∈ (((newSimpleGrouping.run
        [Op.join (Subject.user ⟨"u"⟩) ⟨"a"⟩, Op.join (Subject.user ⟨"u"⟩) ⟨"b"⟩]).Leave
          (Subject.user ⟨"u"⟩) ⟨"a"⟩).1.DirectRolesOf (Subject.user ⟨"u"⟩)).getD [] :=
  ((leave_removes_exactly_edge
      [Op.join (Subject.user ⟨"u"⟩) ⟨"a"⟩, Op.join (Subject.user ⟨"u"⟩) ⟨"b"⟩]
      (Subject.user ⟨"u"⟩) ⟨"a"⟩ (by decide)).2.2.2
    (Subject.user ⟨"u"⟩) ⟨"b"⟩ (by decide)).1.2 (by decide)

/-! ## The keys of `parents` and `children` -/

section OuterKeys

variable {κ α : Type} [DecidableEq κ]

theorem get_makeIfNil_eq_none (m : GoMap κ (List α)) (k k' : κ) :
    (makeIfNil m k).get k' = none ↔ k' ≠ k ∧ m.get k' = none := by
  by_cases h : k = k'
  · subst h
    simp [get_makeIfNil_self]
  · have h' : k' ≠ k := fun hh => h hh.symm
    rw [get_makeIfNil_ne m h]
    tauto

theorem get_del_eq_none (m : GoMap κ (List α)) (k k' : κ) :
    (m.del k).get k' = none ↔ k' = k ∨ m.get k' = none := by
  by_cases h : k = k'
  · subst h
    simp [GoMap.get_del_self]
  · have h' : ¬ k' = k := fun hh => h hh.symm
    rw [GoMap.get_del_ne m h]
    tauto

variable [DecidableEq α]

theorem get_putKey_eq_none (m : GoMap κ (List α)) (k k' : κ) (x : α) :
    (putKey m k x).get k' = none ↔ k' ≠ k ∧ m.get k' = none := by
  by_cases h : k = k'
  · subst h
    simp [get_putKey_self]
  · have h' : k' ≠ k := fun hh => h hh.symm
    rw [get_putKey_ne m h]
    tauto

end OuterKeys

theorem simple_leave_parents_get (e : simpleGrouping) (sub : Subject) (role : Role)
    (k : Subject) : (e.Leave sub role).1.parents.get k = none ↔ e.parents.get k = none := by
  unfold simpleGrouping.Leave
  cases hp : e.parents.get sub with
  | none => rfl
  | some ps =>
    simp only
    cases hc : e.children.get role with
    | none => exact get_dropKey_eq_none _ _ _ _
    | some cs => exact get_dropKey_eq_none _ _ _ _

theorem simple_leave_children_get (e : simpleGrouping) (sub : Subject) (role : Role)
    (k : Role) : (e.Leave sub role).1.children.get k = none ↔ e.children.get k = none := by
  unfold simpleGrouping.Leave
  cases hp : e.parents.get sub with
  | none => rfl
  | some ps =>
    simp only
    cases hc : e.children.get role with
    | none => rfl
    | some cs => exact get_dropKey_eq_none _ _ _ _

theorem step_parents_user (e : simpleGrouping) (op : Op) (u : User) :
    (e.step op).1.parents.get (Subject.user u) ≠ none ↔
      (∃ r, op = Op.join (Subject.user u) r) ∨
        (e.parents.get (Subject.user u) ≠ none ∧ op ≠ Op.removeUser u) := by
  cases op with
  | join sub role =>
    simp only [simpleGrouping.step, simpleGrouping.Join, ne_eq, get_putKey_eq_none,
      get_makeIfNil_eq_none, Op.join.injEq, reduceCtorEq, not_false_eq_true, and_true]
    constructor
    · intro h
      by_cases hs : Subject.user u = sub
      · exact Or.inl ⟨role, hs.symm, rfl⟩
      · exact Or.inr (fun hn => h ⟨hs, hs, hn⟩)
    · rintro (⟨r, hs, -⟩ | h) ⟨h1, -, h3⟩
      · exact h1 hs.symm
      · exact h h3
  | leave sub role =>
    simp only [simpleGrouping.step, ne_eq, simple_leave_parents_get, reduceCtorEq,
      exists_false, not_false_eq_true, and_true, false_or]
  | removeRole role =>
    simp only [simpleGrouping.step, simpleGrouping.RemoveRole, ne_eq,
      get_foldl_dropKey_eq_none, reduceCtorEq, exists_false, not_false_eq_true, and_true,
      false_or]
  | removeUser user =>
    simp only [simpleGrouping.step, simpleGrouping.RemoveUser, ne_eq, get_del_eq_none,
      Subject.user.injEq, reduceCtorEq, exists_false, false_or, Op.removeUser.injEq]
    constructor
    · intro h
      exact ⟨fun hn => h (Or.inr hn), fun hu => h (Or.inl hu.symm)⟩
    · rintro ⟨h1, h2⟩ (h | h)
      · exact h2 h.symm
      · exact h1 h

theorem step_children_role (e : simpleGrouping) (op : Op) (r : Role) :
    (e.step op).1.children.get r ≠ none ↔
      (∃ s, op = Op.join s r) ∨ (e.children.get r ≠ none ∧ op ≠ Op.removeRole r) := by
  cases op with
  | join sub role =>
    simp only [simpleGrouping.step, simpleGrouping.Join, ne_eq, get_putKey_eq_none,
      get_makeIfNil_eq_none, Op.join.injEq, reduceCtorEq, not_false_eq_true, and_true]
    constructor
    · intro h
      by_cases hs : r = role
      · exact Or.inl ⟨sub, rfl, hs.symm⟩
      · exact Or.inr (fun hn => h ⟨hs, hs, hn⟩)
    · rintro (⟨s, -, hs⟩ | h) ⟨h1, -, h3⟩
      · exact h1 hs.symm
      · exact h h3
  | leave sub role =>
    simp only [simpleGrouping.step, ne_eq, simple_leave_children_get, reduceCtorEq,
      exists_false, not_false_eq_true, and_true, false_or]
  | removeRole role =>
    simp only [simpleGrouping.step, simpleGrouping.RemoveRole, ne_eq, get_del_eq_none,
      reduceCtorEq, exists_false, false_or, Op.removeRole.injEq]
    constructor
    · intro h
      exact ⟨fun hn => h (Or.inr hn), fun hu => h (Or.inl hu.symm)⟩
    · rintro ⟨h1, h2⟩ (h | h)
      · exact h2 h.symm
      · exact h1 h
  | removeUser user =>
    simp only [simpleGrouping.step, simpleGrouping.RemoveUser, ne_eq,
      get_foldl_dropKey_eq_none, reduceCtorEq, exists_false, not_false_eq_true, and_true,
      false_or]

theorem simple_run_snoc (e : simpleGrouping) (ops : List Op) (op : Op) :
    e.run (ops ++ [op]) = ((e.run ops).step op).1 := by
  simp [simpleGrouping.run, List.foldl_append]

/-- A call `x` with `J x` that no `bad` call follows, in a list that grows by one call. -/
theorem followed_snoc {α : Type} (J : α → Prop) (bad : α) (ops : List α) (op : α) :
    (∃ pre post x, J x ∧ ops ++ [op] = pre ++ x :: post ∧ bad ∉ post) ↔
      J op ∨ ((∃ pre post x, J x ∧ ops = pre ++ x :: post ∧ bad ∉ post) ∧ op ≠ bad) := by
  constructor
  · rintro ⟨pre, post, x, hJ, heq, hbad⟩
    rcases List.eq_nil_or_concat post with rfl | ⟨post', y, rfl⟩
    · have := List.append_inj' heq rfl
      have hx : op = x := by simpa using this.2
      exact Or.inl (hx ▸ hJ)
    · rw [List.concat_eq_append] at heq hbad
      have heq' : ops ++ [op] = (pre ++ x :: post') ++ [y] := by simpa using heq
      have := List.append_inj' heq' rfl
      have hy : op = y := by simpa using this.2
      rw [List.mem_append, not_or] at hbad
      refine Or.inr ⟨⟨pre, post', x, hJ, this.1, hbad.1⟩, ?_⟩
      intro hb
      apply hbad.2
      rw [← hb, hy]
      exact List.mem_singleton_self y
  · rintro (hJ | ⟨⟨pre, post, x, hJ, rfl, hbad⟩, hne⟩)
    · exact ⟨ops, [], op, hJ, rfl, List.not_mem_nil bad⟩
    · refine ⟨pre, post ++ [op], x, hJ, by simp, ?_⟩
      rw [List.mem_append, not_or]
      exact ⟨hbad, fun h => hne (List.mem_singleton.1 h).symm⟩

theorem followed_nil {α : Type} (J : α → Prop) (bad : α) :
    ¬ ∃ pre post x, J x ∧ ([] : List α) = pre ++ x :: post ∧ bad ∉ post := by
  rintro ⟨pre, post, x, -, h, -⟩
  cases pre <;> cases h

theorem userJoined_iff (ops : List Op) (u : User) :
    userJoined ops u ↔
      ∃ pre post x, (∃ r, x = Op.join (Subject.user u) r) ∧ ops = pre ++ x :: post ∧
        Op.removeUser u ∉ post := by
  constructor
  · rintro ⟨pre, post, r, h1, h2⟩
    exact ⟨pre, post, _, ⟨r, rfl⟩, h1, h2⟩
  · rintro ⟨pre, post, x, ⟨r, rfl⟩, h1, h2⟩
    exact ⟨pre, post, r, h1, h2⟩

theorem roleJoined_iff (ops : List Op) (r : Role) :
    roleJoined ops r ↔
      ∃ pre post x, (∃ s, x = Op.join s r) ∧ ops = pre ++ x :: post ∧
        Op.removeRole r ∉ post := by
  constructor
  · rintro ⟨pre, post, s, h1, h2⟩
    exact ⟨pre, post, _, ⟨s, rfl⟩, h1, h2⟩
  · rintro ⟨pre, post, x, ⟨s, rfl⟩, h1, h2⟩
    exact ⟨pre, post, s, h1, h2⟩

theorem mem_AllUsers_run (ops : List Op) (u : User) :
    u ∈ (newSimpleGrouping.run ops).AllUsers ↔ userJoined ops u := by
  rw [simpleGrouping.mem_AllUsers, userJoined_iff]
  induction ops using List.reverseRecOn with
  | nil =>
    constructor
    · intro h
      exact absurd rfl h
    · intro h
      exact absurd h (followed_nil _ _)
  | append_singleton ops op ih =>
    rw [simple_run_snoc, step_parents_user, followed_snoc, ih]

theorem mem_AllRoles_run (ops : List Op) (r : Role) :
    r ∈ (newSimpleGrouping.run ops).AllRoles ↔ roleJoined ops r := by
  rw [simpleGrouping.mem_AllRoles, roleJoined_iff]
  induction ops using List.reverseRecOn with
  | nil =>
    constructor
    · intro h
      exact absurd rfl h
    · intro h
      exact absurd h (followed_nil _ _)
  | append_singleton ops op ih =>
    rw [simple_run_snoc, step_children_role, followed_snoc, ih]

/-- C12: after any calls on a fresh `simpleGrouping`, `AllUsers()` holds exactly the users
that were the child of a `Join` with no later `RemoveUser` of them, and `AllRoles()` exactly
the roles that were the parent of a `Join` with no later `RemoveRole` of them; a `Leave`
changes neither set. -/
theorem all_users_roles_registered (ops : List Op) :
    (∀ u, u ∈ (newSimpleGrouping.run ops).AllUsers ↔ userJoined ops u) ∧
    (∀ r, r ∈ (newSimpleGrouping.run ops).AllRoles ↔ roleJoined ops r) ∧
    (∀ (sub : Subject) (role : Role),
      (∀ u, u ∈ ((newSimpleGrouping.run ops).Leave sub role).1.AllUsers ↔
        u ∈ (newSimpleGrouping.run ops).AllUsers) ∧
      (∀ r, r ∈ ((newSimpleGrouping.run ops).Leave sub role).1.AllRoles ↔
        r ∈ (newSimpleGrouping.run ops).AllRoles)) := by
  refine ⟨mem_AllUsers_run ops, mem_AllRoles_run ops, ?_⟩
  intro sub role
  constructor
  · intro u
    rw [simpleGrouping.mem_AllUsers, simpleGrouping.mem_AllUsers, ne_eq, ne_eq,
      simple_leave_parents_get]
  · intro r
    rw [simpleGrouping.mem_AllRoles, simpleGrouping.mem_AllRoles, ne_eq, ne_eq,
      simple_leave_children_get]

/-! ## The fake permission persister -/

section Persister

variable {σ ο : Type} [DecidableEq σ] [DecidableEq ο]

theorem mem_entriesFrom {κ ν : Type} [DecidableEq κ] (m : GoMap κ ν) :
    ∀ (seen : List κ) (k : κ) (v : ν),
      (k, v) ∈ GoMap.entriesFrom seen m ↔ k ∉ seen ∧ m.get k = some v := by
  induction m with
  | nil =>
    intro seen k v
    simp [GoMap.entriesFrom, GoMap.get]
  | cons p m ih =>
    obtain ⟨k', v'⟩ := p
    intro seen k v
    by_cases hs : k' ∈ seen
    · rw [GoMap.entriesFrom, if_pos hs, ih]
      constructor
      · rintro ⟨h1, h2⟩
        have hne : ¬ k' = k := fun h => h1 (h ▸ hs)
        exact ⟨h1, by simp [GoMap.get, hne, h2]⟩
      · rintro ⟨h1, h2⟩
        have hne : ¬ k' = k := fun h => h1 (h ▸ hs)
        simp only [GoMap.get, hne, if_false] at h2
        exact ⟨h1, h2⟩
    · rw [GoMap.entriesFrom, if_neg hs, List.mem_cons, ih]
      by_cases hk : k' = k
      · subst hk
        simp [GoMap.get, hs]
        constructor
        · intro h
          exact h.symm
        · intro h
          exact h.symm
      · have hk' : ¬ k = k' := fun h => hk h.symm
        simp [GoMap.get, hk, hk']

theorem mem_entries {κ ν : Type} [DecidableEq κ] (m : GoMap κ ν) (k : κ) (v : ν) :
    (k, v) ∈ m.entries ↔ m.get k = some v := by
  simp [GoMap.entries, mem_entriesFrom]

theorem nodup_keys_entriesFrom {κ ν : Type} [DecidableEq κ] (m : GoMap κ ν) :
    ∀ seen : List κ, ((GoMap.entriesFrom seen m).map Prod.fst).Nodup := by
  induction m with
  | nil =>
    intro seen
    simp [GoMap.entriesFrom]
  | cons p m ih =>
    obtain ⟨k', v'⟩ := p
    intro seen
    by_cases hs : k' ∈ seen
    · rw [GoMap.entriesFrom, if_pos hs]
      exact ih seen
    · rw [GoMap.entriesFrom, if_neg hs, List.map_cons, List.nodup_cons]
      refine ⟨?_, ih _⟩
      intro hmem
      obtain ⟨⟨k, v⟩, hkv, hk⟩ := List.mem_map.1 hmem
      simp only at hk
      subst hk
      exact ((mem_entriesFrom m _ _ _).1 hkv).1 (List.mem_cons_self _ _)

theorem nodup_keys_entries {κ ν : Type} [DecidableEq κ] (m : GoMap κ ν) :
    (m.entries.map Prod.fst).Nodup :=
  nodup_keys_entriesFrom m []

/-- A policy is in `List()` exactly when the maps hold its action under its subject and
object. -/
theorem mem_List (p : permissionPersister σ ο) (t : PermissionPolicy σ ο) :
    t ∈ p.List.1 ↔
      ∃ perm, p.polices.get t.Subject = some perm ∧ perm.get t.Object = some t.Action := by
  simp only [permissionPersister.List, List.mem_flatMap, List.mem_map]
  constructor
  · rintro ⟨⟨s, perm⟩, hsp, ⟨o, a⟩, hoa, rfl⟩
    exact ⟨perm, (mem_entries _ _ _).1 hsp, (mem_entries _ _ _).1 hoa⟩
  · rintro ⟨perm, h1, h2⟩
    exact ⟨(t.Subject, perm), (mem_entries _ _ _).2 h1, (t.Object, t.Action),
      (mem_entries _ _ _).2 h2, rfl⟩

/-- `List()` has at most one policy for a subject and an object. -/
theorem nodup_keys_List (p : permissionPersister σ ο) :
    (p.List.1.map (fun t => (t.Subject, t.Object))).Nodup := by
  simp only [permissionPersister.List, List.map_flatMap, List.map_map]
  rw [List.nodup_flatMap]
  constructor
  · rintro ⟨s, perm⟩ -
    have h := (nodup_keys_entries perm).map (f := fun o => (s, o))
      (fun a b hab => (Prod.mk.inj hab).2)
    rw [List.map_map] at h
    exact h
  · have h := List.pairwise_map.1 (nodup_keys_entries p.polices)
    refine h.imp ?_
    rintro ⟨s1, perm1⟩ ⟨s2, perm2⟩ hne x h1 h2
    obtain ⟨oa1, -, rfl⟩ := List.mem_map.1 h1
    obtain ⟨oa2, -, heq⟩ := List.mem_map.1 h2
    exact hne (Prod.mk.inj heq).1.symm

theorem filter_key_eq_singleton {τ κ : Type} [DecidableEq κ] (key : τ → κ) :
    ∀ (l : List τ) (t : τ), (l.map key).Nodup → t ∈ l →
      l.filter (fun x => decide (key x = key t)) = [t] := by
  intro l
  induction l with
  | nil =>
    intro t _ ht
    cases ht
  | cons a l ih =>
    intro t hnd ht
    rw [List.map_cons, List.nodup_cons] at hnd
    rcases List.mem_cons.1 ht with rfl | ht
    · rw [List.filter_cons, if_pos (by simp)]
      congr 1
      rw [List.filter_eq_nil_iff]
      intro x hx hkx
      exact hnd.1 (List.mem_map.2 ⟨x, hx, by simpa using hkx⟩)
    · have hne : ¬ key a = key t := fun h => hnd.1 (List.mem_map.2 ⟨t, ht, h.symm⟩)
      rw [List.filter_cons, if_neg (by simpa using hne)]
      exact ih t hnd.2 ht

end Persister

section Upsert

variable {σ ο : Type} [DecidableEq σ] [DecidableEq ο]

theorem upsertStore_polices_self (p : permissionPersister σ ο) (s : σ) (o : ο) (a : Action) :
    (p.upsertStore s o a).1.polices.get s = some (((p.polices.get s).getD []).set o a) := by
  simp [permissionPersister.upsertStore, GoMap.get_set_self]

theorem upsertStore_polices_ne (p : permissionPersister σ ο) (s s' : σ) (o : ο) (a : Action)
    (h : s ≠ s') : (p.upsertStore s o a).1.polices.get s' = p.polices.get s' := by
  simp [permissionPersister.upsertStore, GoMap.get_set_ne _ h]

/-- What `Upsert` leaves in the maps: a read of `polices[s'][o']` (0 when missing) gives
`a` at `(s, o)` and the old value elsewhere, and a stored entry stays stored. -/
theorem upsert_lookup (p : permissionPersister σ ο) (s : σ) (o : ο) (a : Action) (ha : a ≠ 0) :
    (p.Upsert s o a).2 = none ∧
    (∃ perm, (p.Upsert s o a).1.polices.get s = some perm ∧ perm.get o = some a) ∧
    (∀ s' o', ¬ (s' = s ∧ o' = o) → ∀ a',
      (∃ perm, (p.Upsert s o a).1.polices.get s' = some perm ∧ perm.get o' = some a') ↔
        ∃ perm, p.polices.get s' = some perm ∧ perm.get o' = some a') := by
  unfold permissionPersister.Upsert
  cases hp : p.polices.get s with
  | some perm =>
    simp only
    by_cases heq : (perm.get o).getD 0 = a
    · rw [if_pos heq]
      refine ⟨rfl, ⟨perm, hp, ?_⟩, fun _ _ _ _ => Iff.rfl⟩
      cases ho : perm.get o with
      | none =>
        rw [ho] at heq
        exact absurd heq.symm ha
      | some b =>
        rw [ho] at heq
        exact congrArg some heq
    · rw [if_neg heq]
      refine ⟨rfl, ⟨_, upsertStore_polices_self p s o a, GoMap.get_set_self _ _ _⟩, ?_⟩
      intro s' o' hne a'
      by_cases hs : s = s'
      · subst hs
        have ho : ¬ o = o' := fun h => hne ⟨rfl, h.symm⟩
        rw [upsertStore_polices_self, hp]
        simp only [Option.getD_some, Option.some.injEq, exists_eq_left']
        rw [GoMap.get_set_ne _ ho]
      · rw [upsertStore_polices_ne p s s' o a hs]
  | none =>
    simp only
    refine ⟨rfl, ⟨_, upsertStore_polices_self _ s o a, GoMap.get_set_self _ _ _⟩, ?_⟩
    intro s' o' hne a'
    by_cases hs : s = s'
    · subst hs
      have ho : ¬ o = o' := fun h => hne ⟨rfl, h.symm⟩
      rw [upsertStore_polices_self, hp]
      simp only [GoMap.get_set_self, Option.getD_some, Option.some.injEq, exists_eq_left',
        false_and, exists_false, iff_false]
      rw [GoMap.get_set_ne _ ho]
      simp [GoMap.get]
    · rw [upsertStore_polices_ne _ s s' o a hs]
      simp only
      rw [GoMap.get_set_ne _ hs]

/-- C20: for every state of the fake permission persister, subject `s`, object `o` and
non-zero mask `a`, `Upsert(s, o, a)` returns nil and afterwards `List()` has exactly one
policy for `(s, o)`, with mask `a`, while a policy of any other subject and object is in
`List()` exactly when it was there before. -/
theorem upsert_replaces_mask (p : permissionPersister σ ο) (s : σ) (o : ο) (a : Action)
    (ha : a ≠ 0) :
    (p.Upsert s o a).2 = none ∧
    (p.Upsert s o a).1.List.1.filter (fun t => decide ((t.Subject, t.Object) = (s, o)))
      = [⟨s, o, a⟩] ∧
    ∀ t : PermissionPolicy σ ο, ¬ (t.Subject = s ∧ t.Object = o) →
      (t ∈ (p.Upsert s o a).1.List.1 ↔ t ∈ p.List.1) := by
  obtain ⟨h1, h2, h3⟩ := upsert_lookup p s o a ha
  refine ⟨h1, ?_, ?_⟩
  · have hmem : (⟨s, o, a⟩ : PermissionPolicy σ ο) ∈ (p.Upsert s o a).1.List.1 :=
      (mem_List _ _).2 h2
    exact filter_key_eq_singleton (fun t : PermissionPolicy σ ο => (t.Subject, t.Object)) _ _
      (nodup_keys_List _) hmem
  · intro t ht
    rw [mem_List, mem_List]
    exact h3 t.Subject t.Object ht t.Action

end Upsert

/-- C20 at a persister that already holds `(User alice, doc, 6)`: after
`Upsert(User alice, doc, 1)` the one policy of that pair in `List()` has mask 1, not
`6 | 1`. -/
theorem upsert_replaces_mask_witness :
    ((NewPermissionPersister
        [(⟨Subject.user ⟨"alice"⟩, "doc", 6⟩ : PermissionPolicy Subject String)]).Upsert
        (Subject.user ⟨"alice"⟩) "doc" 1).1.List.1.filter
      (fun t => decide ((t.Subject, t.Object) = (Subject.user ⟨"alice"⟩, "doc")))
      = [⟨Subject.user ⟨"alice"⟩, "doc", 1⟩] :=
  (upsert_replaces_mask
    (NewPermissionPersister
      [(⟨Subject.user ⟨"alice"⟩, "doc", 6⟩ : PermissionPolicy Subject String)])
    (Subject.user ⟨"alice"⟩) "doc" 1 (by decide)).2.1

/-! ## Symmetry and the two closures of `simpleGrouping` -/

/-- C24: in every state reached from `newSimpleGrouping()` by `Join`, `Leave` (whether it
returns nil or an error), `RemoveRole` and `RemoveUser`, a role `r` is in `parents[s]`
exactly when `s` is in `children[r]`, which is `r ∈ DirectRolesOf(s)` exactly when
`s ∈ DirectSubjectsOf(r)`. -/
theorem reachable_maps_symmetric (ops : List Op) (s : Subject) (r : Role) :
    (r ∈ rangeOf (newSimpleGrouping.run ops).parents s ↔
      s ∈ rangeOf (newSimpleGrouping.run ops).children r) ∧
    (r ∈ ((newSimpleGrouping.run ops).DirectRolesOf s).getD [] ↔
      s ∈ ((newSimpleGrouping.run ops).DirectSubjectsOf r).getD []) :=
  ⟨symmetric_run ops _ symmetric_new s r, symmetric_run ops _ symmetric_new s r⟩

/-- C25: in every state whose maps `parents` and `children` are symmetric, hence in every
reachable state, a user `u` is in `UsersOf(r)` exactly when `r` is in `RolesOf(u)`. -/
theorem usersOf_iff_rolesOf (e : simpleGrouping) (h : Symmetric e) (u : User) (r : Role) :
    u ∈ e.UsersOf r ↔ r ∈ e.RolesOf u := by
  rw [simpleGrouping.mem_UsersOf, simpleGrouping.mem_RolesOf]
  constructor
  · rintro ⟨n, h1, h2, hd⟩
    exact ⟨n, h1, h2, hd.toPath h⟩
  · rintro ⟨n, h1, h2, hp⟩
    exact ⟨n, h1, h2, hp.toDown h⟩

/-- C25 on the reachable state of the nested joins `Role a → Role b`, `User u → Role a`:
`u` is in `UsersOf(b)`, as `b` is in `RolesOf(u)`. -/
theorem usersOf_iff_rolesOf_witness :
    (⟨"u"⟩ : User) ∈ (newSimpleGrouping.run nestedOps).UsersOf ⟨"b"⟩ :=
  (usersOf_iff_rolesOf (newSimpleGrouping.run nestedOps)
    (symmetric_run nestedOps _ symmetric_new) ⟨"u"⟩ ⟨"b"⟩).2 (by decide)

/-! ## `Leave` that returns an error -/

theorem dropKey_of_not_mem {κ α : Type} [DecidableEq κ] [DecidableEq α]
    (m : GoMap κ (List α)) (k : κ) (x : α) (h : x ∉ rangeOf m k) : dropKey m k x = m := by
  unfold dropKey
  cases hk : m.get k with
  | none => rfl
  | some t =>
    simp only
    have ht : x ∉ t := by simpa [rangeOf, hk] using h
    have hf : t.filter (fun y => decide (y ≠ x)) = t := by
      rw [List.filter_eq_self]
      intro y hy
      have : y ≠ x := fun hyx => ht (hyx ▸ hy)
      simpa using this
    rw [hf]
    exact GoMap.set_of_get m k t hk

/-- On symmetric maps a `Leave` that returns an error leaves the state as it was. -/
theorem simple_leave_error_state (e : simpleGrouping) (hs : Symmetric e) (sub : Subject)
    (role : Role) (h : (e.Leave sub role).2 ≠ none) : (e.Leave sub role).1 = e := by
  unfold simpleGrouping.Leave at h ⊢
  cases hp : e.parents.get sub with
  | none => rfl
  | some ps =>
    rw [hp] at h
    simp only at h ⊢
    cases hc : e.children.get role with
    | none =>
      simp only
      have hnot : role ∉ rangeOf e.parents sub := by
        intro hmem
        have := (hs sub role).1 hmem
        simp [rangeOf, hc] at this
      rw [dropKey_of_not_mem _ _ _ hnot]
    | some cs =>
      rw [hc] at h
      exact absurd rfl h

/-- C27: in every reachable `simpleGrouping` state a `Leave(sub, r)` that returns an error
leaves `parents` and `children` exactly as they were, and a `fatGrouping` over that state
returns the same error with its `roles` and `users` closures, and the embedded grouping,
unchanged. -/
theorem leave_error_changes_nothing (ops : List Op) (sub : Subject) (r : Role)
    (h : ((newSimpleGrouping.run ops).Leave sub r).2 ≠ none) :
    ((newSimpleGrouping.run ops).Leave sub r).1 = newSimpleGrouping.run ops ∧
    ∀ (n : Nat) (roles : GoMap Subject (List Role)) (users : GoMap Role (List User)),
      fatGrouping.Leave n
          { Grouping := newSimpleGrouping.run ops, roles := roles, users := users } sub r
        = some ({ Grouping := newSimpleGrouping.run ops, roles := roles, users := users },
            ((newSimpleGrouping.run ops).Leave sub r).2) := by
  have hs : Symmetric (newSimpleGrouping.run ops) := symmetric_run ops _ symmetric_new
  have hst := simple_leave_error_state _ hs sub r h
  refine ⟨hst, ?_⟩
  intro n roles users
  unfold fatGrouping.Leave
  cases hl : (newSimpleGrouping.run ops).Leave sub r with
  | mk inner err =>
    rw [hl] at h hst
    simp only at h hst
    cases err with
    | none => exact absurd rfl h
    | some x =>
      simp only
      rw [hst]

/-- C27 at `Join(User u, Role a)` followed by `Leave(User u, Role b)`: `b` has no member,
`Leave` returns `ErrNotFound` after its delete in `parents[u]`, and the state is the one
before the call. -/
theorem leave_error_changes_nothing_witness :
    ((newSimpleGrouping.run [Op.join (Subject.user ⟨"u"⟩) ⟨"a"⟩]).Leave
        (Subject.user ⟨"u"⟩) ⟨"b"⟩).1
      = newSimpleGrouping.run [Op.join (Subject.user ⟨"u"⟩) ⟨"a"⟩] :=
  (leave_error_changes_nothing [Op.join (Subject.user ⟨"u"⟩) ⟨"a"⟩]
    (Subject.user ⟨"u"⟩) ⟨"b"⟩ (by decide)).1

/-! ## `Remove` on the fake permission persister -/

section Remove

variable {σ ο : Type} [DecidableEq σ] [DecidableEq ο]

theorem getD_zero_of_get {m : GoMap ο Action} {o : ο} {a : Action} (h : m.get o = some a)
    (ha : a ≠ 0) : ¬ (m.get o).getD 0 = 0 := by
  rw [h]
  exact ha

/-- What `Remove` leaves in the maps: nothing changes for another subject or object, and a
second `Remove` of the same pair finds nothing to delete. -/
theorem remove_lookup (p : permissionPersister σ ο) (s : σ) (o : ο) :
    (p.Remove s o).2 = none ∧
    (∀ s' o', ¬ (s' = s ∧ o' = o) → ∀ a',
      (∃ perm, (p.Remove s o).1.polices.get s' = some perm ∧ perm.get o' = some a') ↔
        ∃ perm, p.polices.get s' = some perm ∧ perm.get o' = some a') ∧
    (p.Remove s o).1.Remove s o = ((p.Remove s o).1, none) := by
  unfold permissionPersister.Remove
  cases hp : p.polices.get s with
  | none => simp [hp]
  | some perm =>
    simp only
    by_cases hz : (perm.get o).getD 0 = 0
    · simp [if_pos hz, hp]
    · simp only [if_neg hz, GoMap.get_set_self, GoMap.get_del_self, Option.getD_none,
        if_true]
      refine ⟨trivial, ?_, trivial⟩
      intro s' o' hne a'
      by_cases hs : s = s'
      · subst hs
        have ho : ¬ o = o' := fun h => hne ⟨rfl, h.symm⟩
        rw [GoMap.get_set_self, hp]
        simp only [Option.some.injEq, exists_eq_left']
        rw [GoMap.get_del_ne _ ho]
      · rw [GoMap.get_set_ne _ hs]

/-- What `Remove` does to a pair stored with a non-zero mask: the entry is gone and one
delete record is sent. -/
theorem remove_stored (p : permissionPersister σ ο) (s : σ) (o : ο) (perm : GoMap ο Action)
    (a : Action) (hp : p.polices.get s = some perm) (ho : perm.get o = some a) (ha : a ≠ 0) :
    (p.Remove s o).1.polices.get s = some (perm.del o) ∧
    (p.Remove s o).1.changes =
      p.changes ++ [⟨⟨s, o, 0⟩, PersistMethod.PersistDelete⟩] := by
  unfold permissionPersister.Remove
  simp only [hp, if_neg (getD_zero_of_get ho ha), GoMap.get_set_self, and_self]

/-- C22: for every state of the fake permission persister, `Remove(s, o)` returns nil and
leaves the policies of every other subject and object in `List()` as they were; when
`(s, o)` was stored with a non-zero mask, `List()` afterwards has no policy for `(s, o)`
and exactly one delete record was sent; a second `Remove(s, o)` returns nil and leaves the
maps and the records sent unchanged. -/
theorem remove_idempotent (p : permissionPersister σ ο) (s : σ) (o : ο) :
    (p.Remove s o).2 = none ∧
    (∀ t : PermissionPolicy σ ο, ¬ (t.Subject = s ∧ t.Object = o) →
      (t ∈ (p.Remove s o).1.List.1 ↔ t ∈ p.List.1)) ∧
    (∀ a : Action, a ≠ 0 → (⟨s, o, a⟩ : PermissionPolicy σ ο) ∈ p.List.1 →
      (∀ t ∈ (p.Remove s o).1.List.1, ¬ (t.Subject = s ∧ t.Object = o)) ∧
      (p.Remove s o).1.changes =
        p.changes ++ [⟨⟨s, o, 0⟩, PersistMethod.PersistDelete⟩]) ∧
    (p.Remove s o).1.Remove s o = ((p.Remove s o).1, none) := by
  obtain ⟨h1, h2, h3⟩ := remove_lookup p s o
  refine ⟨h1, ?_, ?_, h3⟩
  · intro t ht
    rw [mem_List, mem_List]
    exact h2 t.Subject t.Object ht t.Action
  · intro a ha hmem
    obtain ⟨perm, hp, ho⟩ := (mem_List p _).1 hmem
    obtain ⟨hget, hch⟩ := remove_stored p s o perm a hp ho ha
    refine ⟨?_, hch⟩
    rintro t ht ⟨hs, hobj⟩
    obtain ⟨perm', hp', ho'⟩ := (mem_List _ _).1 ht
    rw [hs, hget] at hp'
    cases hp'
    rw [hobj, GoMap.get_del_self] at ho'
    cases ho'

end Remove

/-- C22 at a persister that holds `(User alice, doc, 6)`: `Remove(User alice, doc)` sends
one delete record, and the second `Remove` changes nothing. -/
theorem remove_idempotent_witness :
    ((NewPermissionPersister
        [(⟨Subject.user ⟨"alice"⟩, "doc", 6⟩ : PermissionPolicy Subject String)]).Remove
        (Subject.user ⟨"alice"⟩) "doc").1.changes
      = [⟨⟨Subject.user ⟨"alice"⟩, "doc", 0⟩, PersistMethod.PersistDelete⟩] :=
  ((remove_idempotent
    (NewPermissionPersister
      [(⟨Subject.user ⟨"alice"⟩, "doc", 6⟩ : PermissionPolicy Subject String)])
    (Subject.user ⟨"alice"⟩) "doc").2.2.1 6 (by decide) (by decide)).2

/-! ## Zero masks in the fake permission persister -/

section ZeroMasks

variable {σ ο : Type} [DecidableEq σ] [DecidableEq ο]

theorem or_ne_zero_right (x a : Nat) (ha : a ≠ 0) : x ||| a ≠ 0 := by
  intro h
  apply ha
  apply Nat.eq_of_testBit_eq
  intro i
  have hi := congrArg (fun y => Nat.testBit y i) h
  simp only [Nat.testBit_or, Nat.zero_testBit, Bool.or_eq_false_iff] at hi
  rw [hi.2, Nat.zero_testBit]

/-- One step of the loop of `NewPermissionPersister` on a policy with a non-zero mask keeps
every stored mask non-zero. -/
theorem newStep_nonzero (m : GoMap σ (GoMap ο Action)) (policy : PermissionPolicy σ ο)
    (hm : ∀ s perm o a, m.get s = some perm → perm.get o = some a → a ≠ 0)
    (hp : policy.Action ≠ 0) :
    ∀ s perm o a,
      (((match m.get policy.Subject with
          | none => m.set policy.Subject []
          | some _ => m).set policy.Subject
        ((((match m.get policy.Subject with
            | none => m.set policy.Subject []
            | some _ => m).get policy.Subject).getD []).set policy.Object
          ((((((match m.get policy.Subject with
              | none => m.set policy.Subject []
              | some _ => m).get policy.Subject).getD []).get policy.Object).getD 0) |||
            policy.Action))).get s = some perm) →
      perm.get o = some a → a ≠ 0 := by
  intro s perm o a h1 h2
  by_cases hs : policy.Subject = s
  · subst hs
    rw [GoMap.get_set_self] at h1
    cases h1
    by_cases ho : policy.Object = o
    · subst ho
      rw [GoMap.get_set_self] at h2
      cases h2
      exact or_ne_zero_right _ _ hp
    · rw [GoMap.get_set_ne _ ho] at h2
      cases hg : m.get policy.Subject with
      | none =>
        rw [hg] at h2
        simp [GoMap.get_set_self, GoMap.get] at h2
      | some old =>
        rw [hg] at h2
        simp only [hg, Option.getD_some] at h2
        exact hm _ old o a hg h2
  · rw [GoMap.get_set_ne _ hs] at h1
    cases hg : m.get policy.Subject with
    | none =>
      rw [hg] at h1
      simp only at h1
      rw [GoMap.get_set_ne _ hs] at h1
      exact hm s perm o a h1 h2
    | some old =>
      rw [hg] at h1
      exact hm s perm o a h1 h2

theorem masksNonZero_iff (p : permissionPersister σ ο) :
    MasksNonZero p ↔ ∀ s perm o a, p.polices.get s = some perm → perm.get o = some a → a ≠ 0 := by
  constructor
  · intro h s perm o a h1 h2
    exact h ⟨s, o, a⟩ ((mem_List p _).2 ⟨perm, h1, h2⟩)
  · intro h t ht
    obtain ⟨perm, h1, h2⟩ := (mem_List p _).1 ht
    exact h _ perm _ _ h1 h2

theorem masksNonZero_new (initPolices : Policies σ ο)
    (h : ∀ t ∈ initPolices, t.Action ≠ 0) : MasksNonZero (NewPermissionPersister initPolices) := by
  rw [masksNonZero_iff]
  unfold NewPermissionPersister
  simp only
  have key : ∀ (l : Policies σ ο) (m : GoMap σ (GoMap ο Action)),
      (∀ t ∈ l, t.Action ≠ 0) →
      (∀ s perm o a, m.get s = some perm → perm.get o = some a → a ≠ 0) →
      ∀ s perm o a,
        (l.foldl
          (fun m policy =>
            let m1 := match m.get policy.Subject with
              | none => m.set policy.Subject []
              | some _ => m
            let perm := (m1.get policy.Subject).getD []
            m1.set policy.Subject
              (perm.set policy.Object (((perm.get policy.Object).getD 0) ||| policy.Action)))
          m).get s = some perm → perm.get o = some a → a ≠ 0 := by
    intro l
    induction l with
    | nil =>
      intro m _ hm
      exact hm
    | cons t l ih =>
      intro m hl hm
      rw [List.foldl_cons]
      apply ih _ (fun x hx => hl x (List.mem_cons_of_mem t hx))
      exact newStep_nonzero m t hm (hl t (List.mem_cons_self t l))
  exact key initPolices [] h (fun s perm o a h1 _ => by simp [GoMap.get] at h1)

theorem masksNonZero_Upsert (p : permissionPersister σ ο) (hp : MasksNonZero p) (s : σ) (o : ο)
    (a : Action) (ha : a ≠ 0) : MasksNonZero (p.Upsert s o a).1 := by
  obtain ⟨-, ⟨perm, h2, h2'⟩, h3⟩ := upsert_lookup p s o a ha
  intro t ht
  by_cases hk : t.Subject = s ∧ t.Object = o
  · obtain ⟨perm', g1, g2⟩ := (mem_List _ _).1 ht
    rw [hk.1, h2] at g1
    cases g1
    rw [hk.2, h2'] at g2
    cases g2
    exact ha
  · apply hp t
    rw [mem_List] at ht ⊢
    exact (h3 t.Subject t.Object hk t.Action).1 ht

theorem mem_List_of_Remove (p : permissionPersister σ ο) (s : σ) (o : ο)
    (t : PermissionPolicy σ ο) (ht : t ∈ (p.Remove s o).1.List.1) : t ∈ p.List.1 := by
  by_cases hk : t.Subject = s ∧ t.Object = o
  · unfold permissionPersister.Remove at ht
    cases hg : p.polices.get s with
    | none =>
      rw [hg] at ht
      exact ht
    | some perm =>
      rw [hg] at ht
      simp only at ht
      by_cases hz : (perm.get o).getD 0 = 0
      · rw [if_pos hz] at ht
        exact ht
      · rw [if_neg hz] at ht
        obtain ⟨perm', g1, g2⟩ := (mem_List _ _).1 ht
        simp only at g1
        rw [hk.1, GoMap.get_set_self] at g1
        cases g1
        rw [hk.2, GoMap.get_del_self] at g2
        cases g2
  · obtain ⟨-, h2, -⟩ := remove_lookup p s o
    rw [mem_List] at ht ⊢
    exact (h2 t.Subject t.Object hk t.Action).1 ht

theorem masksNonZero_Remove (p : permissionPersister σ ο) (hp : MasksNonZero p) (s : σ) (o : ο) :
    MasksNonZero (p.Remove s o).1 :=
  fun t ht => hp t (mem_List_of_Remove p s o t ht)

/-- The part of C21 that holds: from initial policies with non-zero masks, by `Remove` and
by `Upsert` with non-zero masks, `List()` never returns a policy with a zero mask. -/
theorem masksNonZero_run (initPolices : Policies σ ο) (ops : PersisterOps σ ο)
    (hinit : ∀ t ∈ initPolices, t.Action ≠ 0)
    (hops : ∀ s o a, PersisterOp.upsert s o a ∈ ops → a ≠ 0) :
    MasksNonZero ((NewPermissionPersister initPolices).run ops) := by
  have key : ∀ (l : PersisterOps σ ο) (p : permissionPersister σ ο), MasksNonZero p →
      (∀ s o a, PersisterOp.upsert s o a ∈ l → a ≠ 0) → MasksNonZero (p.run l) := by
    intro l
    induction l with
    | nil =>
      intro p hp _
      exact hp
    | cons op l ih =>
      intro p hp hl
      apply ih _ _ (fun s o a h => hl s o a (List.mem_cons_of_mem op h))
      cases op with
      | upsert s o a =>
        exact masksNonZero_Upsert p hp s o a (hl s o a (List.mem_cons_self _ l))
      | remove s o => exact masksNonZero_Remove p hp s o
  exact key ops _ (masksNonZero_new initPolices hinit) hops

end ZeroMasks

/-- C21 at `Upsert(User alice, doc, None)` on the persister without initial policies:
`List()` returns the policy `(User alice, doc, 0)`, a later `Remove(User alice, doc)` leaves
it there, and an initial policy with mask 0 is listed as well. -/
theorem upsert_none_lists_zero_mask :
    ((NewPermissionPersister ([] : Policies Subject String)).run
        [PersisterOp.upsert (Subject.user ⟨"alice"⟩) "doc" Action.None]).List.1
      = [⟨Subject.user ⟨"alice"⟩, "doc", 0⟩] ∧
    ((NewPermissionPersister ([] : Policies Subject String)).run
        [PersisterOp.upsert (Subject.user ⟨"alice"⟩) "doc" Action.None,
         PersisterOp.remove (Subject.user ⟨"alice"⟩) "doc"]).List.1
      = [⟨Subject.user ⟨"alice"⟩, "doc", 0⟩] ∧
    (NewPermissionPersister
        [(⟨Subject.user ⟨"alice"⟩, "doc", Action.None⟩ : PermissionPolicy Subject String)]).List.1
      = [⟨Subject.user ⟨"alice"⟩, "doc", 0⟩] := by
  decide

/-! ## The rebuilds of `fatGrouping` on a cycle -/

/-- `rebuildUsers(a)` on a role that is its own only parent calls itself again on the same
direct edges, whatever the number `n` of nested calls allowed. -/
theorem rebuildUsers_self_parent_fields : ∀ (n : Nat) (inner : simpleGrouping)
    (roles : GoMap Subject (List Role)) (users : GoMap Role (List User)) (a : Role),
    inner.DirectRolesOf (Subject.role a) = some [a] →
    fatGrouping.rebuildUsers n { Grouping := inner, roles := roles, users := users } a = none
  | 0, _, _, _, _, _ => rfl
  | n + 1, inner, roles, users, a, h => by
    rw [fatGrouping.rebuildUsers]
    simp only [h, Option.getD_some, List.foldlM_cons, List.foldlM_nil]
    rw [rebuildUsers_self_parent_fields n inner _ _ a h]
    rfl

theorem rebuildUsers_self_parent (n : Nat) (g : fatGrouping) (a : Role)
    (h : g.Grouping.DirectRolesOf (Subject.role a) = some [a]) :
    fatGrouping.rebuildUsers n g a = none := by
  cases g with
  | mk inner roles users => exact rebuildUsers_self_parent_fields n inner roles users a h

theorem fat_removeUser_self_parent (n : Nat) (g : fatGrouping) (u : User) (a : Role)
    (h1 : g.Grouping.DirectRolesOf (Subject.user u) = some [a])
    (h2 : (g.Grouping.RemoveUser u).1.DirectRolesOf (Subject.role a) = some [a]) :
    g.RemoveUser n u = none := by
  have hr := rebuildUsers_self_parent n { g with Grouping := (g.Grouping.RemoveUser u).1 } a h2
  unfold fatGrouping.RemoveUser
  simp only [h1, Option.getD_some, List.foldlM_cons, List.foldlM_nil]
  have hpair : g.Grouping.RemoveUser u = ((g.Grouping.RemoveUser u).1, none) := rfl
  rw [hpair]
  simp only
  rw [hr]
  rfl

theorem fat_leave_self_parent (n : Nat) (g : fatGrouping) (sub : Subject) (a : Role)
    (h1 : (g.Grouping.Leave sub a).2 = none)
    (h2 : (g.Grouping.Leave sub a).1.DirectRolesOf (Subject.role a) = some [a])
    (h3 : (g.Grouping.Leave sub a).1.DirectRolesOf sub = some []) :
    g.Leave n sub a = none := by
  unfold fatGrouping.Leave
  cases hl : g.Grouping.Leave sub a with
  | mk inner err =>
    rw [hl] at h1 h2 h3
    simp only at h1 h2 h3
    subst h1
    simp only
    cases n with
    | zero => rfl
    | succ m =>
      rw [fatGrouping.rebuildRoles]
      simp only [h3, Option.getD_some, List.foldl_nil, List.foldlM_nil]
      have hr := rebuildUsers_self_parent (m + 1)
        { Grouping := inner, roles := g.roles.set sub [], users := g.users } a h2
      rw [hr]

theorem fat_run_join (n : Nat) (g : fatGrouping) (sub : Subject) (role : Role)
    (rest : List Op) :
    fatGrouping.run n g (Op.join sub role :: rest) = fatGrouping.run n (g.Join sub role).1 rest := by
  simp [fatGrouping.run, fatGrouping.step]

theorem fat_run_single (n : Nat) (g : fatGrouping) (op : Op) :
    fatGrouping.run n g [op] = (g.step n op).map Prod.fst := by
  simp [fatGrouping.run]

/-- C23 on the cycle `Join(Role a, Role a)` with `Join(User u, Role a)`: the
`simpleGrouping` queries return, and on the `fatGrouping` neither `RemoveUser(User u)` nor
`Leave(User u, Role a)` has returned after any number `n` of nested rebuild calls:
`rebuildUsers(a)` calls itself through the edge `a → a` without end. -/
theorem fat_rebuild_loops_on_cycle (n : Nat) :
    (newSimpleGrouping.run selfLoopOps).RolesOf ⟨"u"⟩ = [⟨"a"⟩] ∧
    (newSimpleGrouping.run selfLoopOps).UsersOf ⟨"a"⟩ = [⟨"u"⟩] ∧
    (newSimpleGrouping.run selfLoopOps).HasRole ⟨"u"⟩ ⟨"a"⟩ = true ∧
    fatGrouping.run n (newFatGrouping newSimpleGrouping)
      (selfLoopOps ++ [Op.removeUser ⟨"u"⟩]) = none ∧
    fatGrouping.run n (newFatGrouping newSimpleGrouping)
      (selfLoopOps ++ [Op.leave (Subject.user ⟨"u"⟩) ⟨"a"⟩]) = none := by
  refine ⟨by decide, by decide, by decide, ?_, ?_⟩
  · show fatGrouping.run n _ [Op.join _ _, Op.join _ _, Op.removeUser _] = none
    rw [fat_run_join, fat_run_join, fat_run_single]
    simp only [fatGrouping.step]
    rw [fat_removeUser_self_parent n _ ⟨"u"⟩ ⟨"a"⟩ (by decide) (by decide)]
    rfl
  · show fatGrouping.run n _ [Op.join _ _, Op.join _ _, Op.leave _ _] = none
    rw [fat_run_join, fat_run_join, fat_run_single]
    simp only [fatGrouping.step]
    rw [fat_leave_self_parent n _ (Subject.user ⟨"u"⟩) ⟨"a"⟩ (by decide) (by decide)
      (by decide)]
    rfl

/-! ## `Split` on 32 actions -/

/-- C26 at `AllActions` of 32 actions: `ResetActions` with 32 names returns `1 << 31` as its
last action and leaves `AllActions = 2 ^ 32 - 1`; on that value `Split` has not returned
after any number `n` of tests of its loop condition, and neither has `String`. -/
theorem split_all32_never_returns (n : Nat) (reg : Registry) :
    (ResetActions Registry.initial (List.replicate 32 "x")).2.getLast? = some (2 ^ 31) ∧
    (ResetActions Registry.initial (List.replicate 32 "x")).1.AllActions = 2 ^ 32 - 1 ∧
    Action.Split n (2 ^ 32 - 1) = none ∧
    Action.String reg n (2 ^ 32 - 1) = none := by
  have h : Action.Split n (2 ^ 32 - 1) = none :=
    splitLoop_bit31 (2 ^ 32 - 1) (by decide) n 0 [] (by decide)
  refine ⟨by decide, by decide, h, ?_⟩
  rw [Action.String, h]
  rfl

end Rbac
